import Mathlib

/-
Verification of the regex-backend state-machine builder
(src/include/regex-backend/state_machine_internal/builder.h).

The graph data model (node.h / node_store.h) is not part of src/; the Node
and NodeStore types below are modelled from the specification, section 3
"DATA MODEL" and section 4.1: a node holds a mapping from concrete keys to
1-based child indices (0 = absent), a single default child, a single eof
child, and an optional accept record consisting of a value and a back_by
count.  The node store is an ordered sequence of nodes indexed 1..N with
0 reserved as the null reference.  All algorithms (find, matches,
find_many, the combinators, make_nonambiguous_link, and the optimizer
passes) are translated from builder.h itself.
-/

set_option autoImplicit false
set_option maxHeartbeats 2000000

namespace RegexBackend

/-- Conflict resolution policy, from the ConflictAction enum in builder.h. -/
inductive ConflictAction where
  | Skip
  | Overwrite
  | Error
deriving DecidableEq, Repr

/-- A transition key: a concrete symbol, the Default sentinel, or the Eof
sentinel.  Modelled from the spec: node.h is not in src/; section 3 of the
spec defines the transition key as one of these three forms. -/
inductive Key (T : Type) where
  | sym (t : T)
  | deflt
  | eof
deriving DecidableEq, Repr

/-- A state-machine node.  Modelled from the spec (section 3): a mapping
from concrete keys to child indices (kept as an association list in first
written order), a default child, an eof child, and an optional accept
record (value paired with its back_by count). -/
structure Node (V T : Type) where
  concrete : List (T × Nat) := []
  deflt : Nat := 0
  eof : Nat := 0
  value : Option (V × Nat) := none
deriving DecidableEq, Repr

variable {V T : Type}
instance {E A : Type} [DecidableEq E] [DecidableEq A] : DecidableEq (Except E A) := fun a b =>
  match a, b with
  | .error e, .error f =>
    if h : e = f then isTrue (by rw [h]) else isFalse (fun hh => h (by injection hh))
  | .error _, .ok _ => isFalse (fun hh => by injection hh)
  | .ok _, .error _ => isFalse (fun hh => by injection hh)
  | .ok x, .ok y =>
    if h : x = y then isTrue (by rw [h]) else isFalse (fun hh => h (by injection hh))

def emptyNode : Node V T := {}

/-- Association-list lookup used for the concrete transition map: first
entry with the given key, 0 when the key is absent. -/
def assocGet [DecidableEq T] : List (T × Nat) → T → Nat
  | [], _ => 0
  | (a, b) :: rest, t => if a = t then b else assocGet rest t

/-- Association-list write: overwrite the first entry with the given key,
or append a new entry. -/
def assocSet [DecidableEq T] : List (T × Nat) → T → Nat → List (T × Nat)
  | [], t, v => [(t, v)]
  | (a, b) :: rest, t, v => if a = t then (t, v) :: rest else (a, b) :: assocSet rest t v

/-- Read a node's transition slot for a (possibly sentinel) key, as
Node_T::transition(Key_T) does. -/
def Node.getKey [DecidableEq T] (nd : Node V T) : Key T → Nat
  | .sym t => assocGet nd.concrete t
  | .deflt => nd.deflt
  | .eof => nd.eof

/-- Write a node's transition slot for a (possibly sentinel) key. -/
def Node.setKey [DecidableEq T] (nd : Node V T) : Key T → Nat → Node V T
  | .sym t, v => { nd with concrete := assocSet nd.concrete t v }
  | .deflt, v => { nd with deflt := v }
  | .eof, v => { nd with eof := v }

/-- Apply a function to every transition slot of a node (concrete map,
default and eof).  This is how the passes in builder.h rewrite references
via each_transition; the callers only ever rewrite non-zero references, and
the rewriting functions used below always fix 0. -/
def Node.mapRefs (nd : Node V T) (f : Nat → Nat) : Node V T :=
  { nd with
    concrete := nd.concrete.map (fun p => (p.1, f p.2))
    deflt := f nd.deflt
    eof := f nd.eof }

/-- The transitions iterated by each_transition: the non-null concrete
entries followed by the default and eof slots when present.  Modelled from
the spec (section 4.1: iterate all concrete transitions, read default,
read eof). -/
def Node.eachEntries (nd : Node V T) : List (Key T × Nat) :=
  (nd.concrete.filter (fun p => p.2 ≠ 0)).map (fun p => (Key.sym p.1, p.2))
    ++ (if nd.deflt ≠ 0 then [(Key.deflt, nd.deflt)] else [])
    ++ (if nd.eof ≠ 0 then [(Key.eof, nd.eof)] else [])

/-- The transitions iterated by get_transitions in make_nonambiguous_link:
all stored concrete entries (a stored null entry is visible there, which is
what the purity rules of section 4.5 examine) followed by the default and
eof slots when present. -/
def Node.allEntries (nd : Node V T) : List (Key T × Nat) :=
  nd.concrete.map (fun p => (Key.sym p.1, p.2))
    ++ (if nd.deflt ≠ 0 then [(Key.deflt, nd.deflt)] else [])
    ++ (if nd.eof ≠ 0 then [(Key.eof, nd.eof)] else [])

/-- Structural nullness: no accept record and every outgoing transition
(including default and eof) is 0 (spec section 3). -/
def Node.is_null (nd : Node V T) : Bool :=
  nd.value.isNone && nd.concrete.all (fun p => p.2 = 0) && nd.deflt = 0 && nd.eof = 0

/-- Runtime transition lookup rt_get_transition: concrete keys first, else
the default slot.  Modelled from the spec (section 4.14). -/
def Node.rt_get_transition [DecidableEq T] (nd : Node V T) (s : T) : Nat :=
  let c := assocGet nd.concrete s
  if c ≠ 0 then c else nd.deflt

/-- The machine state: the node store (1-based indexing, index 0 is the
null reference) plus the construction state (cursors and conflict policy)
from StateMachineConstructionState. -/
structure Machine (V T : Type) where
  nodes : List (Node V T)
  cursors : List Nat := [1]
  on_conflict : ConflictAction := .Error
deriving DecidableEq, Repr

/-- List lookup for the 1-based node store; out-of-range reads give the
empty node. -/
def nthNode : List (Node V T) → Nat → Node V T
  | [], _ => emptyNode
  | nd :: _, 0 => nd
  | _ :: rest, i + 1 => nthNode rest i

/-- List write for the node store (0-based position). -/
def setNth : List (Node V T) → Nat → Node V T → List (Node V T)
  | [], _, _ => []
  | _ :: rest, 0, nd => nd :: rest
  | x :: rest, i + 1, nd => x :: setNth rest i nd

/-- get_node: 1-based node access. -/
def Machine.get_node (m : Machine V T) (i : Nat) : Node V T :=
  nthNode m.nodes (i - 1)

def Machine.set_node (m : Machine V T) (i : Nat) (nd : Node V T) : Machine V T :=
  { m with nodes := setNth m.nodes (i - 1) nd }

/-- new_node: push a fresh node; its index is the new store size. -/
def Machine.push_node (m : Machine V T) (nd : Node V T) : Machine V T :=
  { m with nodes := m.nodes ++ [nd] }

def Machine.size (m : Machine V T) : Nat := m.nodes.length

/-- Write one transition slot of the node at 1-based index i. -/
def Machine.set_key [DecidableEq T] (m : Machine V T) (i : Nat) (k : Key T) (v : Nat) :
    Machine V T :=
  m.set_node i ((m.get_node i).setKey k v)

/-- A fresh dynamic machine: one root node, cursors = [1], Error policy. -/
def newMachine : Machine V T := { nodes := [emptyNode] }

----------------------------------------------------------------
-- Runtime: matches (full-input test, INCLUDE_EOF = false)
----------------------------------------------------------------
/-- Loop of matches for non-UTF-8 machines: walk transitions; any dead end
returns the null value; at the end succeed iff the final node has an
accept record (back_by is ignored). -/
def matchesU_go [DecidableEq T] (m : Machine V T) : List T → Nat → Bool
  | [], current => (m.get_node current).value.isSome
  | s :: rest, current =>
    let next := (m.get_node current).rt_get_transition s
    if next ≠ 0 then matchesU_go m rest next else false

/-- matches for non-UTF-8 machines (IS_UTF8 = false, INCLUDE_EOF = false),
reporting success as a Bool (the machine of interest is the regex machine,
whose value payload is Unit). -/
def matchesU [DecidableEq T] (m : Machine V T) (input : List T) : Bool :=
  matchesU_go m input 1

----------------------------------------------------------------
-- Runtime: find (greedy longest-match scan), non-UTF-8 machines
----------------------------------------------------------------
/-- Result of find: the matched half-open range of input positions with
the accept value, or no match. -/
inductive FindRes (V : Type) where
  | nomatch
  | found (b : Nat) (e : Nat) (v : V)
deriving DecidableEq, Repr

/-- The scan loop of find, translated directly from builder.h: state is
(position, current node, most specific matched node, match begin, match
end); the loop ends at end of input or at a dead end reached with a
recorded match, and returns the (most, begin, end) triple. -/
def find_loop [DecidableEq T] (m : Machine V T) :
    List T → Nat → Nat → Nat → Nat → Nat → Nat × Nat × Nat
  | [], _, _, most, mb, me => (most, mb, me)
  | s :: rest, i, current, most, mb, me =>
    let loc := (m.get_node current).rt_get_transition s
    if loc ≠ 0 then
      if (m.get_node loc).value.isSome then
        find_loop m rest (i + 1) loc loc mb (i + 1)
      else
        find_loop m rest (i + 1) loc most mb me
    else if most = 0 then
      find_loop m rest (i + 1) 1 0 (i + 1) (i + 1)
    else
      (most, mb, me)

/-- find for non-UTF-8 machines: run the scan loop, then if a match was
recorded subtract that node's back_by from the match end and yield the
range with the accept value. -/
def find [DecidableEq T] (m : Machine V T) (input : List T) : FindRes V :=
  let r := find_loop m input 0 1 0 0 0
  if r.1 = 0 then .nomatch
  else
    match (m.get_node r.1).value with
    | some (v, bb) => .found r.2.1 (r.2.2 - bb) v
    | none => .nomatch

----------------------------------------------------------------
-- Specification-side restatement of the find scan (claim C3)
----------------------------------------------------------------
/-- Scan state of the specification's description of find (section 4.14):
current node, most specific matched node, match begin, match end. -/
structure ScanState where
  current : Nat
  most : Nat
  mbeg : Nat
  mend : Nat
deriving DecidableEq, Repr

/-- One step of the scan, written from the claim's sentences: take the
transition for the current symbol (concrete key first, else default); if
it exists advance, recording the node and the next position when it has an
accept record; on a dead end with no recorded match restart from the root
at the next position; on a dead end with a recorded match stop. -/
inductive StepRes where
  | go (st : ScanState)
  | halt (st : ScanState)

def find_step [DecidableEq T] (m : Machine V T) (st : ScanState) (s : T) (i : Nat) : StepRes :=
  let next := (m.get_node st.current).rt_get_transition s
  if next ≠ 0 then
    if (m.get_node next).value.isSome then .go ⟨next, next, st.mbeg, i + 1⟩
    else .go ⟨next, st.most, st.mbeg, st.mend⟩
  else if st.most = 0 then
    .go ⟨1, 0, i + 1, i + 1⟩
  else
    .halt st

def find_spec_loop [DecidableEq T] (m : Machine V T) : List T → Nat → ScanState → ScanState
  | [], _, st => st
  | s :: rest, i, st =>
    match find_step m st s i with
    | .go st2 => find_spec_loop m rest (i + 1) st2
    | .halt st2 => st2

/-- find as the claim states it: the scan from state (1, 0, 0, 0), then if
a match was recorded, the span from match_begin to the recorded end minus
the recorded node's back_by together with the accept value. -/
def find_spec [DecidableEq T] (m : Machine V T) (input : List T) : FindRes V :=
  let st := find_spec_loop m input 0 ⟨1, 0, 0, 0⟩
  if st.most = 0 then .nomatch
  else
    match (m.get_node st.most).value with
    | some (v, bb) => .found st.mbeg (st.mend - bb) v
    | none => .nomatch

----------------------------------------------------------------
-- Runtime: find_many
----------------------------------------------------------------
def FindRes.range_size {V : Type} : FindRes V → Nat
  | .nomatch => 0
  | .found b e _ => e - b

def FindRes.range_end {V : Type} : FindRes V → Nat
  | .nomatch => 0
  | .found _ e _ => e

/-- The iterator of find_many: each load runs find on the remaining data;
when the returned range is empty the remaining data is cleared, otherwise
it becomes the suffix after the range's end.  A loaded result is yielded
exactly when the remaining data is still non-empty afterwards (the
iterator equality test compares remaining sizes against the empty end
iterator). -/
def find_many_go [DecidableEq T] (m : Machine V T) : Nat → List T → List (FindRes V)
  | 0, _ => []
  | fuel + 1, data =>
    let r := find m data
    let d2 := if r.range_size = 0 then [] else data.drop r.range_end
    if d2.length = 0 then [] else r :: find_many_go m fuel d2

def find_many [DecidableEq T] (m : Machine V T) (input : List T) : List (FindRes V) :=
  find_many_go m (input.length + 1) input

----------------------------------------------------------------
-- UTF-8 validator and the byte-level runtime
----------------------------------------------------------------
/-- The UTF-8 error kinds of utf_validator. -/
inductive UtfError where
  | overlappingSequence
  | strayByte
  | truncatedSequence
  | interruptedSequence
deriving DecidableEq, Repr

/-- countl_one on an 8-bit byte: number of leading one bits. -/
def leadingOnes8 (c : Nat) : Nat :=
  if c &&& 128 = 0 then 0
  else if c &&& 64 = 0 then 1
  else if c &&& 32 = 0 then 2
  else if c &&& 16 = 0 then 3
  else if c &&& 8 = 0 then 4
  else if c &&& 4 = 0 then 5
  else if c &&& 2 = 0 then 6
  else if c &&& 1 = 0 then 7
  else 8

/-- utf_validator::next: the state is the number of continuation bytes
still expected. -/
def uv_next (count : Nat) (c : Nat) : Except UtfError Nat :=
  if c &&& 128 ≠ 0 then
    if c &&& 192 = 192 then
      if count ≠ 0 then .error .overlappingSequence
      else .ok (leadingOnes8 c - 1)
    else
      if count = 0 then .error .strayByte
      else .ok (count - 1)
  else
    if count ≠ 0 then .error .interruptedSequence else .ok count

/-- utf_validator::final. -/
def uv_final (count : Nat) : Except UtfError Unit :=
  if count ≠ 0 then .error .truncatedSequence else .ok ()

/-- Whole-input UTF-8 well-formedness under the validator: scanning every
byte raises no error and the final check passes. -/
def utf8Valid_go : Nat → List Nat → Bool
  | count, [] => count = 0
  | count, c :: rest =>
    match uv_next count c with
    | .error _ => false
    | .ok k => utf8Valid_go k rest

def utf8Valid (input : List Nat) : Bool := utf8Valid_go 0 input

/-- Outcome of matches on a UTF-8 machine under Return error mode. -/
inductive MatchOutcome (V : Type) where
  | utfErr (e : UtfError)
  | noMatch
  | matched (v : V)
deriving DecidableEq, Repr

/-- matches for UTF-8 machines (INCLUDE_EOF = false): each byte is fed to
the validator (an error is returned at once); a dead end returns the null
value immediately, before the remaining bytes are seen; after the loop the
validator's final check runs, then success iff the final node has an
accept record. -/
def matchesB_go (m : Machine V Nat) : List Nat → Nat → Nat → MatchOutcome V
  | [], current, count =>
    match uv_final count with
    | .error e => .utfErr e
    | .ok _ =>
      match (m.get_node current).value with
      | some (v, _) => .matched v
      | none => .noMatch
  | c :: rest, current, count =>
    let next := (m.get_node current).rt_get_transition c
    match uv_next count c with
    | .error e => .utfErr e
    | .ok count2 =>
      if next ≠ 0 then matchesB_go m rest next count2 else .noMatch

def matchesB (m : Machine V Nat) (input : List Nat) : MatchOutcome V :=
  matchesB_go m input 1 0

/-- Outcome of find on a UTF-8 machine under Return error mode. -/
inductive FindOutcome (V : Type) where
  | utfErr (e : UtfError)
  | nomatch
  | found (b : Nat) (e : Nat) (v : V)
deriving DecidableEq, Repr

/-- The find scan loop for UTF-8 machines: per position the byte is first
fed to the validator (an error returns at once); the loop breaks at a dead
end reached with a recorded match, after which only the validator's final
check runs on the state accumulated so far. -/
def findB_loop (m : Machine V Nat) :
    List Nat → Nat → Nat → Nat → Nat → Nat → Nat → Except UtfError (Nat × Nat × Nat)
  | [], _, _, most, mb, me, count =>
    match uv_final count with
    | .error e => .error e
    | .ok _ => .ok (most, mb, me)
  | c :: rest, i, current, most, mb, me, count =>
    match uv_next count c with
    | .error e => .error e
    | .ok count2 =>
      let loc := (m.get_node current).rt_get_transition c
      if loc ≠ 0 then
        if (m.get_node loc).value.isSome then
          findB_loop m rest (i + 1) loc loc mb (i + 1) count2
        else
          findB_loop m rest (i + 1) loc most mb me count2
      else if most = 0 then
        findB_loop m rest (i + 1) 1 0 (i + 1) (i + 1) count2
      else
        match uv_final count2 with
        | .error e => .error e
        | .ok _ => .ok (most, mb, me)

def findB (m : Machine V Nat) (input : List Nat) : FindOutcome V :=
  match findB_loop m input 0 1 0 0 0 0 with
  | .error e => .utfErr e
  | .ok r =>
    if r.1 = 0 then .nomatch
    else
      match (m.get_node r.1).value with
      | some (v, bb) => .found r.2.1 (r.2.2 - bb) v
      | none => .nomatch

----------------------------------------------------------------
-- Build-time errors
----------------------------------------------------------------
/-- Build-time failure: the MUTILS assertions and the conflict panics of
builder.h, with the panic payload recording which nodes collided. -/
inductive BuildErr where
  | nullLinkAssertion
  | replacementAssertion
  | msbAssertion
  | fuelExhausted
  | conflictPanic (sites : List (Nat × Nat))
  | exitPanic (nodes : List Nat)
  | defaultPanic (nodes : List Nat)
deriving DecidableEq, Repr

----------------------------------------------------------------
-- UTF-8 expansion performed by match_any_of (claim C2)
----------------------------------------------------------------
/-- The byte keys issued by the IS_UTF8 branch of match_any_of for one
choice: the 32-bit key is treated as an array of up to four UTF-8 bytes,
each emitted byte is masked with drop_mask = 0b10111111, and a single-byte
key whose most significant bit is set trips MUTILS_ASSERT. -/
def utf8Bytes (key : Nat) : Except BuildErr (List Nat) :=
  let dropMask : Nat := 0xBF
  if key &&& (0xFF <<< 24) ≠ 0 then
    .ok [(key >>> 24) &&& dropMask, (key >>> 16) &&& dropMask,
         (key >>> 8) &&& dropMask, key &&& dropMask]
  else if key &&& (0xFF <<< 16) ≠ 0 then
    .ok [(key >>> 16) &&& dropMask, (key >>> 8) &&& dropMask, key &&& dropMask]
  else if key &&& (0xFF <<< 8) ≠ 0 then
    .ok [(key >>> 8) &&& dropMask, key &&& dropMask]
  else if key &&& 128 ≠ 0 then
    .error .msbAssertion
  else
    .ok [key]

/-- UTF-8 encoding of a code point, written from the encoding rules the
spec appeals to (header bits plus continuation bytes masked to
0b10xxxxxx); for comparison with what the builder actually emits. -/
def utf8Encode (cp : Nat) : List Nat :=
  if cp < 0x80 then [cp]
  else if cp < 0x800 then
    [0xC0 ||| (cp >>> 6), 0x80 ||| (cp &&& 0x3F)]
  else if cp < 0x10000 then
    [0xE0 ||| (cp >>> 12), 0x80 ||| ((cp >>> 6) &&& 0x3F), 0x80 ||| (cp &&& 0x3F)]
  else
    [0xF0 ||| (cp >>> 18), 0x80 ||| ((cp >>> 12) &&& 0x3F),
     0x80 ||| ((cp >>> 6) &&& 0x3F), 0x80 ||| (cp &&& 0x3F)]

----------------------------------------------------------------
-- Builder primitives
----------------------------------------------------------------
/-- The transition-merging loop of make_nonambiguous_link: for each
transition (k, reference) of the dst node, apply the purity rules around
self references and nulls, otherwise recurse (the recursive call of the
C++ code, at the remaining fuel, is passed in as rec). -/
def mnal_go [DecidableEq T]
    (rec : Machine V T → Nat → Key T → Nat → List Nat →
      Except BuildErr (Machine V T × List Nat)) :
    Machine V T → Nat → Nat → Nat → List Nat → List (Key T × Nat) →
      Except BuildErr (Machine V T × List Nat)
  | m, _, _, _, _, [] => .ok (m, [])
  | m, nidx, current_target, dst, watch_nodes, (k, reference) :: rest =>
    let node_transition := (m.get_node nidx).getKey k
    if node_transition = nidx ∧ reference = 0 then
      mnal_go rec (m.set_key nidx k current_target) nidx current_target dst watch_nodes rest
    else if reference = dst ∧ node_transition = 0 then
      mnal_go rec (m.set_key nidx k current_target) nidx current_target dst watch_nodes rest
    else if reference = dst ∧ node_transition = nidx then
      mnal_go rec m nidx current_target dst watch_nodes rest
    else if reference = 0 then
      mnal_go rec m nidx current_target dst watch_nodes rest
    else
      match rec m nidx k reference watch_nodes with
      | .error e => .error e
      | .ok (m2, tr) =>
        match mnal_go rec m2 nidx current_target dst watch_nodes rest with
        | .error e => .error e
        | .ok (m3, tr3) => .ok (m3, tr ++ tr3)

/-- make_nonambiguous_link: add the semantics of the sub-graph of the node
at index dst under the transition slot of the node at index src, cloning
the pre-existing target when both are present.  The recursion of the C++
code is unbounded, so the embedding carries fuel; all theorems about it
are conditioned on a successful (.ok) run.  Under the Error policy a value
collision raises the panic immediately, with just that collision site in
the payload. -/
def make_nonambiguous_link [DecidableEq T] :
    Nat → Machine V T → Nat → Key T → Nat → List Nat →
      Except BuildErr (Machine V T × List Nat)
  | fuel, m, src, transition, dst, watch_nodes =>
    if dst = 0 ∨ src = 0 then .error .nullLinkAssertion
    else
      let current_target := (m.get_node src).getKey transition
      if current_target = 0 then
        .ok (m.set_key src transition dst, [])
      else if current_target = dst then
        .ok (m, [])
      else
        match fuel with
        | 0 => .error .fuelExhausted
        | fuel2 + 1 =>
          let nidx := m.size + 1
          let clone := (m.get_node current_target).mapRefs
            (fun v => if v = current_target then nidx else v)
          let m1 := m.push_node clone
          let tracked : List Nat :=
            if dst ∈ watch_nodes then [nidx]
            else if current_target ∈ watch_nodes then [nidx]
            else []
          let vres : Except BuildErr (Machine V T) :=
            match (m1.get_node dst).value with
            | none => .ok m1
            | some tv =>
              match (m1.get_node nidx).value with
              | none => .ok (m1.set_node nidx { m1.get_node nidx with value := some tv })
              | some _ =>
                match m1.on_conflict with
                | .Error => .error (.conflictPanic [(src, dst)])
                | .Skip => .ok m1
                | .Overwrite => .ok (m1.set_node nidx { m1.get_node nidx with value := some tv })
          match vres with
          | .error e => .error e
          | .ok m2 =>
            match mnal_go (make_nonambiguous_link fuel2) m2 nidx current_target dst watch_nodes
                ((m2.get_node dst).allEntries) with
            | .error e => .error e
            | .ok (m3, tr2) => .ok (m3.set_key src transition nidx, tracked ++ tr2)

/-- Phase 1 of cursor_discreet_transition: link every cursor that has no
child and no default to the one shared fresh node. -/
def cdt_phase1 [DecidableEq T] (tr : Key T) (idx : Nat) :
    Machine V T → List Nat → Machine V T
  | m, [] => m
  | m, c :: rest => cdt_phase1 tr idx (m.set_key c tr idx) rest

/-- Phase 2 of cursor_discreet_transition: per cursor that already has a
child, clone the old target into a per-cursor intermediary (rewriting an
immediate self reference to the clone's own index) and repoint the
cursor. -/
def cdt_phase2 [DecidableEq T] (tr : Key T) :
    Machine V T → List Nat → Machine V T × List Nat
  | m, [] => (m, [])
  | m, cursor :: rest =>
    let old_target := (m.get_node cursor).getKey tr
    let inter_idx := m.size + 1
    let clone0 := m.get_node old_target
    let clone := if old_target = cursor then clone0.setKey tr inter_idx else clone0
    let m2 := (m.push_node clone).set_key cursor tr inter_idx
    let r := cdt_phase2 tr m2 rest
    (r.1, inter_idx :: r.2)

/-- Phase 3 of cursor_discreet_transition, for cursors with a default
edge: an existing child is routed through make_nonambiguous_link against
the default target (watched), otherwise a fresh intermediary is linked and
a clone task (intermediary, default target) is queued for the second
pass. -/
def cdt_phase3 [DecidableEq T] (fuel : Nat) (tr : Key T) :
    Machine V T → List Nat → Except BuildErr (Machine V T × List Nat × List (Nat × Nat))
  | m, [] => .ok (m, [], [])
  | m, cursor :: rest =>
    let old_transition := (m.get_node cursor).getKey tr
    if old_transition ≠ 0 then
      let default_idx := (m.get_node cursor).deflt
      match make_nonambiguous_link fuel m cursor tr default_idx [default_idx] with
      | .error e => .error e
      | .ok (m2, replacements) =>
        match replacements with
        | [] => .error .replacementAssertion
        | inter :: _ =>
          match cdt_phase3 fuel tr m2 rest with
          | .error e => .error e
          | .ok (m3, curs, tasks) => .ok (m3, inter :: curs, tasks)
    else
      let inter := m.size + 1
      let m2 := (m.push_node emptyNode).set_key cursor tr inter
      match cdt_phase3 fuel tr m2 rest with
      | .error e => .error e
      | .ok (m3, curs, tasks) =>
        .ok (m3, inter :: curs, (inter, (m.get_node cursor).deflt) :: tasks)

/-- The deferred clone pass of cursor_discreet_transition: copy each
default target's contents wholesale into its queued intermediary. -/
def cdt_tasks [DecidableEq T] : Machine V T → List (Nat × Nat) → Machine V T
  | m, [] => m
  | m, (node, clone_from) :: rest => cdt_tasks (m.set_node node (m.get_node clone_from)) rest

/-- cursor_discreet_transition: ensure each cursor gains a freshly owned
successor under the key, partitioning the cursors into the three disjoint
sets of builder.h (default present / no child / child present). -/
def cursor_discreet_transition [DecidableEq T] (fuel : Nat) (m : Machine V T)
    (transition : Key T) : Except BuildErr (Machine V T) :=
  let cursors_with_default := m.cursors.filter (fun c => (m.get_node c).deflt != 0)
  let cursors_without_child := m.cursors.filter (fun c =>
    decide ((m.get_node c).deflt = 0 ∧ (m.get_node c).getKey transition = 0))
  let cursors_with_child := m.cursors.filter (fun c =>
    decide ((m.get_node c).deflt = 0 ∧ (m.get_node c).getKey transition ≠ 0))
  let p1 : Machine V T × List Nat :=
    if cursors_without_child.length ≠ 0 then
      let idx := m.size + 1
      (cdt_phase1 transition idx (m.push_node emptyNode) cursors_without_child, [idx])
    else (m, [])
  let p2 := cdt_phase2 transition p1.1 cursors_with_child
  match cdt_phase3 fuel transition p2.1 cursors_with_default with
  | .error e => .error e
  | .ok (m3, curs3, tasks) =>
    let m4 := cdt_tasks m3 tasks
    .ok { m4 with cursors := p1.2 ++ p2.2 ++ curs3 }

/-- The per-option loop of match_any_of: each option restarts from the
initial cursor set, advances by one cursor_discreet_transition, and the
resulting cursors are appended to the accumulator. -/
def mao_go [DecidableEq T] (fuel : Nat) (initial : List Nat) :
    Machine V T → List Nat → List T → Except BuildErr (Machine V T × List Nat)
  | m, acc, [] => .ok (m, acc)
  | m, acc, choice :: rest =>
    match cursor_discreet_transition fuel { m with cursors := initial } (Key.sym choice) with
    | .error e => .error e
    | .ok m2 => mao_go fuel initial m2 (acc ++ m2.cursors) rest

/-- match_any_of for a non-UTF-8 alphabet: allocate the local target node
(which nothing ever links to), then run one cursor_discreet_transition per
option from the original cursor set and take the union of the produced
cursors. -/
def match_any_of [DecidableEq T] (fuel : Nat) (m : Machine V T) (options : List T) :
    Except BuildErr (Machine V T) :=
  let m1 := m.push_node emptyNode
  let initial := m1.cursors
  match mao_go fuel initial m1 [] options with
  | .error e => .error e
  | .ok (m2, acc) => .ok { m2 with cursors := acc }

/-- match_sequence: fold match_any_of over the singleton of each element. -/
def match_sequence [DecidableEq T] (fuel : Nat) (m : Machine V T) :
    List T → Except BuildErr (Machine V T)
  | [] => .ok m
  | s :: rest =>
    match match_any_of fuel m [s] with
    | .error e => .error e
    | .ok m2 => match_sequence fuel m2 rest

/-- root(): reset the cursors to the root. -/
def Machine.root (m : Machine V T) : Machine V T := { m with cursors := [1] }

/-- conflict(): set the conflict policy. -/
def Machine.conflict (m : Machine V T) (ca : ConflictAction) : Machine V T :=
  { m with on_conflict := ca }

/-- The cursor loop of exit_point: a cursor without an accept record gets
one with the given back_by; one whose back_by differs is resolved per the
policy, with Error accumulating the colliding cursor. -/
def exit_point_go [DecidableEq T] (back_by : Nat) :
    Machine Unit T → List Nat → List Nat → Machine Unit T × List Nat
  | m, errors, [] => (m, errors)
  | m, errors, cur :: rest =>
    let node := m.get_node cur
    match node.value with
    | some (_, old_bb) =>
      if old_bb ≠ back_by then
        match m.on_conflict with
        | .Skip => exit_point_go back_by m errors rest
        | .Overwrite =>
          exit_point_go back_by
            (m.set_node cur { node with value := some ((), back_by) }) errors rest
        | .Error => exit_point_go back_by m (errors ++ [cur]) rest
      else exit_point_go back_by m errors rest
    | none =>
      exit_point_go back_by
        (m.set_node cur { node with value := some ((), back_by) }) errors rest

/-- exit_point (regex machines only): run the cursor loop, then panic once
with all accumulated collisions when any occurred. -/
def exit_point [DecidableEq T] (m : Machine Unit T) (back_by : Nat) :
    Except BuildErr (Machine Unit T) :=
  let r := exit_point_go back_by m [] m.cursors
  if r.2 ≠ [] then .error (.exitPanic r.2) else .ok r.1

/-- The collisions one exit_point call encounters, read off the machine it
is called on: the cursors whose node already has an accept record with a
different back_by. -/
def collisionsOf [DecidableEq T] (m : Machine Unit T) (back_by : Nat) : List Nat :=
  m.cursors.filter (fun c =>
    match (m.get_node c).value with
    | some (_, old_bb) => old_bb != back_by
    | none => false)

/-- The cursor loop of match_default: a cursor without a default edge gets
one to the freshly allocated shared default node; one that already has a
default edge is resolved per the policy — Skip keeps the existing edge
(recording its target as a surviving cursor), Overwrite repoints it, Error
accumulates the colliding cursor. -/
def match_default_go (didx : Nat) :
    Machine V T → List Nat → List Nat → List Nat → Machine V T × List Nat × List Nat
  | m, new_cursors, errors, [] => (m, new_cursors, errors)
  | m, new_cursors, errors, cur :: rest =>
    let node := m.get_node cur
    if node.deflt = 0 then
      match_default_go didx (m.set_node cur { node with deflt := didx })
        new_cursors errors rest
    else
      match m.on_conflict with
      | .Skip => match_default_go didx m (new_cursors ++ [node.deflt]) errors rest
      | .Overwrite =>
        match_default_go didx (m.set_node cur { node with deflt := didx })
          new_cursors errors rest
      | .Error => match_default_go didx m new_cursors (errors ++ [cur]) rest

/-- match_default: allocate one fresh shared default node, give every
cursor a default edge to it per the conflict policy, panic once after the
loop iff the Error policy recorded at least one collision, and set the
cursors to the fresh node plus any Skip-preserved targets. -/
def match_default (m : Machine V T) : Except BuildErr (Machine V T) :=
  let didx := m.size + 1
  let m1 := m.push_node emptyNode
  let r := match_default_go didx m1 [didx] [] m1.cursors
  if r.2.2 ≠ [] then .error (.defaultPanic r.2.2)
  else .ok { r.1 with cursors := r.2.1 }

/-- The default-edge collisions one match_default call encounters, read
off the machine it is called on: the cursors whose node already has a
default edge. -/
def defCollisionsOf (m : Machine V T) : List Nat :=
  m.cursors.filter (fun c => (m.get_node c).deflt != 0)

----------------------------------------------------------------
-- Optimizer passes
----------------------------------------------------------------
def Machine.has_cursor (m : Machine V T) (index : Nat) : Bool :=
  m.cursors.contains index

def Machine.is_deletable_node [DecidableEq T] (m : Machine V T) (index : Nat) : Bool :=
  if index = 1 then false
  else if ¬(m.get_node index).is_null then false
  else if m.has_cursor index then false
  else true

/-- Initial deletability marks of nullify_nullrefs. -/
def nn_mark_init [DecidableEq T] (m : Machine V T) : List Bool :=
  (List.range m.size).map (fun i => m.is_deletable_node (i + 1))

/-- One sweep of nullify_nullrefs: unmarked nodes have their references to
marked nodes zeroed, and any node thereby turned deletable is newly
marked. -/
def nn_sweep [DecidableEq T] :
    Machine V T → List Bool → Bool → List Nat → Machine V T × List Bool × Bool
  | m, nulls, flag, [] => (m, nulls, flag)
  | m, nulls, flag, i :: rest =>
    if nulls.getD (i - 1) false then nn_sweep m nulls flag rest
    else
      let nd := (m.get_node i).mapRefs
        (fun v => if v ≠ 0 ∧ nulls.getD (v - 1) false then 0 else v)
      let m2 := m.set_node i nd
      if m2.is_deletable_node i then
        nn_sweep m2 (nulls.set (i - 1) true) true rest
      else
        nn_sweep m2 nulls flag rest

def nn_loop [DecidableEq T] : Nat → Machine V T → List Bool → Machine V T
  | 0, m, _ => m
  | fuel + 1, m, nulls =>
    let r := nn_sweep m nulls false (List.range' 1 m.size)
    if r.2.2 then nn_loop fuel r.1 r.2.1 else r.1

/-- nullify_nullrefs: zero references to deletable nodes until a fixpoint
is reached. -/
def nullify_nullrefs [DecidableEq T] (m : Machine V T) : Machine V T :=
  nn_loop (m.size + 1) m (nn_mark_init m)

/-- The transition-equality test of remove_duplicates_once, iterated over
the later node's transitions only: equal when both are self-referring on
the key or both point at the same index. -/
def rd_eq_check [DecidableEq T] (m : Machine V T) (node_idx other_idx : Nat) : Bool :=
  (m.get_node node_idx).eachEntries.all (fun e =>
    let other_tzn := (m.get_node other_idx).getKey e.1
    decide ((e.2 = node_idx ∧ other_tzn = other_idx) ∨ e.2 = other_tzn))

/-- The earlier nodes remove_duplicates_once considers equal to the node
at node_idx. -/
def rd_matchers [DecidableEq T] [DecidableEq V] (m : Machine V T) (flags : List Bool)
    (node_idx : Nat) : List Nat :=
  (List.range' 2 (node_idx - 2)).filter (fun other_idx =>
    let other := m.get_node other_idx
    (!(other.is_null && !flags.getD (other_idx - 1) false)) &&
    (flags.getD (other_idx - 1) false == flags.getD (node_idx - 1) false) &&
    decide ((m.get_node node_idx).value = other.value) &&
    rd_eq_check m node_idx other_idx)

/-- Collapse each matched earlier node into the node at new_idx: redirect
every reference, nullify it and clear its cursor flag. -/
def rd_apply [DecidableEq T] :
    Machine V T → List Bool → Nat → List Nat → Machine V T × List Bool
  | m, flags, _, [] => (m, flags)
  | m, flags, new_idx, old_idx :: rest =>
    let m2 : Machine V T := { m with nodes := m.nodes.map (fun nd =>
      nd.mapRefs (fun v => if v = old_idx then new_idx else v)) }
    let m3 := m2.set_node old_idx emptyNode
    rd_apply m3 (flags.set (old_idx - 1) false) new_idx rest

/-- The reverse scan of remove_duplicates_once over node indices n..2. -/
def rd_pass [DecidableEq T] [DecidableEq V] :
    Machine V T → List Bool → Bool → List Nat → Machine V T × List Bool × Bool
  | m, flags, removed, [] => (m, flags, removed)
  | m, flags, removed, node_idx :: rest =>
    let node := m.get_node node_idx
    if node.is_null && !flags.getD (node_idx - 1) false then
      rd_pass m flags removed rest
    else
      let matchers := rd_matchers m flags node_idx
      if matchers ≠ [] then
        let r := rd_apply m flags node_idx matchers
        rd_pass r.1 r.2 true rest
      else
        rd_pass m flags removed rest

def remove_duplicates_once [DecidableEq T] [DecidableEq V] (m : Machine V T) :
    Machine V T × Bool :=
  let flags := (List.range m.size).map (fun i => m.has_cursor (i + 1))
  let r := rd_pass m flags false ((List.range' 2 (m.size - 1)).reverse)
  let new_cursors :=
    ((List.range m.size).filter (fun i => r.2.1.getD i false)).map (fun i => i + 1)
  ({ r.1 with cursors := new_cursors }, r.2.2)

def rd_loop [DecidableEq T] [DecidableEq V] : Nat → Machine V T → Machine V T
  | 0, m => m
  | fuel + 1, m =>
    let r := remove_duplicates_once m
    if r.2 then rd_loop fuel r.1 else r.1

/-- remove_duplicates: repeat remove_duplicates_once until a pass removes
nothing. -/
def remove_duplicates [DecidableEq T] [DecidableEq V] (m : Machine V T) : Machine V T :=
  rd_loop (m.size + 1) m

/-- One expansion sweep of the reachability loop in nullify_orphans. -/
def no_sweep [DecidableEq T] (m : Machine V T) :
    List Bool → Bool → List Nat → List Bool × Bool
  | reach, flag, [] => (reach, flag)
  | reach, flag, i :: rest =>
    if reach.getD (i - 1) false then
      let r := (m.get_node i).eachEntries.foldl
        (fun (acc : List Bool × Bool) e =>
          if acc.1.getD (e.2 - 1) false then acc
          else (acc.1.set (e.2 - 1) true, true))
        (reach, flag)
      no_sweep m r.1 r.2 rest
    else no_sweep m reach flag rest

def no_loop [DecidableEq T] (m : Machine V T) : Nat → List Bool → List Bool
  | 0, reach => reach
  | fuel + 1, reach =>
    let r := no_sweep m reach false (List.range' 1 m.size)
    if r.2 then no_loop m fuel r.1 else r.1

/-- The reachability bitmap (indexed by node position, 0-based) computed
by nullify_orphans from the root. -/
def computeReach [DecidableEq T] (m : Machine V T) : List Bool :=
  no_loop m (m.size + 1) ((List.replicate m.size false).set 0 true)

def no_nullify (reach : List Bool) : Nat → List (Node V T) → List (Node V T)
  | _, [] => []
  | i, nd :: rest => (if reach.getD i false then nd else emptyNode) :: no_nullify reach (i + 1) rest

/-- nullify_orphans, exactly as builder.h has it.  Note the cursor rewrite
reads reachables[c] for a cursor c, where every other use of the bitmap
indexes it with c - 1 (an out-of-range read is taken as false). -/
def nullify_orphans [DecidableEq T] (m : Machine V T) : Machine V T :=
  let reach := computeReach m
  let cursors2 := m.cursors.map (fun c => if reach.getD c false then c else 0)
  { m with
    nodes := no_nullify reach 0 m.nodes
    cursors := cursors2.filter (fun c => c != 0) }

/-- The scan of remove_blanks: drop structurally null non-root nodes
(builder.h consults has_cursor with the running new index), building the
old-to-new index mapping. -/
def rb_scan [DecidableEq T] (m : Machine V T) :
    List Nat → List (Node V T) → List Nat → Nat → List (Node V T) × List Nat
  | [], acc, mappings, _ => (acc, mappings)
  | old :: rest, acc, mappings, idx =>
    let nd := m.get_node old
    if nd.is_null && decide (old ≠ 1) && !m.has_cursor idx then
      rb_scan m rest acc mappings idx
    else
      rb_scan m rest (acc ++ [nd]) (mappings.set (old - 1) idx) (idx + 1)

/-- remove_blanks: physically rebuild the store, remapping every
transition and every cursor through the old-to-new mapping. -/
def remove_blanks [DecidableEq T] (m : Machine V T) : Machine V T :=
  let r := rb_scan m (List.range' 1 m.size) [] ((List.replicate m.size 0).set 0 1) 1
  let mappings := r.2
  { m with
    nodes := r.1.map (fun nd =>
      nd.mapRefs (fun t => if t ≠ 0 then mappings.getD (t - 1) 0 else t))
    cursors := m.cursors.map (fun c => mappings.getD (c - 1) 0) }

/-- optimize: the six-pass pipeline of builder.h. -/
def optimize [DecidableEq T] [DecidableEq V] (m : Machine V T) : Machine V T :=
  remove_blanks (nullify_orphans (remove_duplicates (nullify_nullrefs
    (remove_duplicates (nullify_nullrefs m)))))

----------------------------------------------------------------
-- Reachability closure (used to state the frame claims)
----------------------------------------------------------------
/-- The non-null references of a node (concrete, default and eof). -/
def Node.refsOf (nd : Node V T) : List Nat := nd.eachEntries.map (fun e => e.2)

def reach_step [DecidableEq T] (m : Machine V T) (s : List Nat) : List Nat :=
  s ++ ((s.map (fun i => (m.get_node i).refsOf)).flatten).filter (fun j => decide (j ∉ s))

def reach_iter [DecidableEq T] (m : Machine V T) : Nat → List Nat → List Nat
  | 0, s => s
  | n + 1, s => reach_iter m n (reach_step m s)

/-- All nodes reachable from root (root included): saturation of the
one-step successor relation, run for one iteration more than the store
size. -/
def reachClosure [DecidableEq T] (m : Machine V T) (root : Nat) : List Nat :=
  reach_iter m (m.size + 1) [root]

----------------------------------------------------------------
-- The unlinked-null-node predicate (claims C5 and C8)
----------------------------------------------------------------
/-- No transition slot of the node holds the index j. -/
def NoRef (j : Nat) (nd : Node V T) : Prop :=
  (∀ p ∈ nd.concrete, p.2 ≠ j) ∧ nd.deflt ≠ j ∧ nd.eof ≠ j

/-- Index j names a structurally empty node that no node of the store
references. -/
def Unlinked (m : Machine V T) (j : Nat) : Prop :=
  m.get_node j = emptyNode ∧ (∀ nd ∈ m.nodes, NoRef j nd) ∧ 1 ≤ j ∧ j ≤ m.size

----------------------------------------------------------------
-- Frame and unlinked-preservation facts for make_nonambiguous_link
----------------------------------------------------------------
/-- Induction payload for make_nonambiguous_link: the store only grows;
every pre-existing node other than src is untouched; returned replacement
nodes are freshly allocated; and an unlinked empty node distinct from src
and dst stays unlinked. -/
def MnalOk [DecidableEq T] (fuel : Nat) : Prop :=
  ∀ (m : Machine V T) (src : Nat) (k : Key T) (dst : Nat) (w : List Nat)
    (m2 : Machine V T) (r : List Nat),
    make_nonambiguous_link fuel m src k dst w = .ok (m2, r) →
    m.size ≤ m2.size ∧
    (∀ i, 1 ≤ i → i ≤ m.size → i ≠ src → m2.get_node i = m.get_node i) ∧
    (∀ x ∈ r, m.size < x) ∧
    (∀ j, Unlinked m j → src ≠ j → dst ≠ j → Unlinked m2 j)

/-- Induction payload for the merging loop mnal_go (writes land on the
fresh clone nidx only). -/
def MnalGoOk [DecidableEq T] (fuel : Nat) : Prop :=
  ∀ (entries : List (Key T × Nat)) (m : Machine V T) (nidx cur dst : Nat)
    (w : List Nat) (m2 : Machine V T) (r : List Nat),
    mnal_go (make_nonambiguous_link fuel) m nidx cur dst w entries = .ok (m2, r) →
    1 ≤ nidx →
    m.size ≤ m2.size ∧
    (∀ i, 1 ≤ i → i ≤ m.size → i ≠ nidx → m2.get_node i = m.get_node i) ∧
    (∀ x ∈ r, m.size < x) ∧
    (∀ j, Unlinked m j → nidx ≠ j → cur ≠ j → (∀ e ∈ entries, e.2 ≠ j) → Unlinked m2 j)

----------------------------------------------------------------
-- Concrete machines used by the claim theorems
----------------------------------------------------------------
/-- A machine produced by the public builder surface alone: new;
match_any_of [0]; exit_point; match_any_of [1]; exit_point; root;
match_any_of [2]; exit_point; root.  It accepts the word 0.1 (among
others). -/
def buildC1 : Except BuildErr (Machine Unit Nat) := do
  let m0 : Machine Unit Nat := newMachine
  let m1 ← match_any_of 9 m0 [0]
  let m2 ← exit_point m1 0
  let m3 ← match_any_of 9 m2 [1]
  let m4 ← exit_point m3 0
  let m5 ← match_any_of 9 m4.root [2]
  let m6 ← exit_point m5 0
  pure m6.root

/-- Machine state for the nullify_orphans cursor test: root reaches node
3; node 2 is an unreachable accepting node carrying the only cursor. -/
def M7 : Machine Unit Nat :=
  { nodes := [{ concrete := [(0, 3)] }, { value := some ((), 0) }, {}]
    cursors := [2] }

/-- Byte machine accepting exactly the byte 97. -/
def MB4 : Machine Unit Nat :=
  { nodes := [{ concrete := [(97, 2)] }, { value := some ((), 0) }] }

/-- Machine over symbols accepting exactly the symbol 0 (used for the
find_many witness). -/
def W9 : Machine Unit Nat :=
  { nodes := [{ concrete := [(0, 2)] }, { value := some ((), 0) }] }

/-- Well-formedness of a machine state (spec invariants 1-3): the root
exists, every reference lands inside the store, and cursors are indices in
the store. -/
def WellFormed (m : Machine V T) : Prop :=
  1 ≤ m.size ∧
  (∀ nd ∈ m.nodes,
    (∀ p ∈ nd.concrete, p.2 ≤ m.size) ∧ nd.deflt ≤ m.size ∧ nd.eof ≤ m.size) ∧
  (∀ c ∈ m.cursors, 1 ≤ c ∧ c ≤ m.size)

/-- The store after match_any_of 9 newMachine [0, 1]: node 2 is the dead
locally allocated target node. -/
def M8res : Machine Unit Nat :=
  { nodes := [{ concrete := [(0, 3), (1, 4)] }, {}, {}, {}], cursors := [3, 4] }

/-- A machine with two value collisions along one make_nonambiguous_link
call: fusing node 3 into the transition 1 -(0)-> 2 collides at the clone
of node 2 (against node 3) and, recursively, at the clone of node 5
(against node 4). -/
def M6 : Machine Nat Nat :=
  { nodes := [{ concrete := [(0, 2)] },
              { concrete := [(1, 5)], value := some (10, 0) },
              { concrete := [(1, 4)], value := some (20, 0) },
              { value := some (30, 0) },
              { value := some (40, 0) }] }

/-- Result of the M6 call under Skip: both clones keep the earlier values
10 and 40. -/
def M6skip : Machine Nat Nat :=
  { nodes := [{ concrete := [(0, 6)] },
              { concrete := [(1, 5)], value := some (10, 0) },
              { concrete := [(1, 4)], value := some (20, 0) },
              { value := some (30, 0) },
              { value := some (40, 0) },
              { concrete := [(1, 7)], value := some (10, 0) },
              { value := some (40, 0) }]
    on_conflict := .Skip }

/-- Result of the M6 call under Overwrite: both clones take the later
values 20 and 30. -/
def M6over : Machine Nat Nat :=
  { nodes := [{ concrete := [(0, 6)] },
              { concrete := [(1, 5)], value := some (10, 0) },
              { concrete := [(1, 4)], value := some (20, 0) },
              { value := some (30, 0) },
              { value := some (40, 0) },
              { concrete := [(1, 7)], value := some (20, 0) },
              { value := some (30, 0) }]
    on_conflict := .Overwrite }

/-- An Error-policy machine whose only cursor carries back_by = 5,
colliding with an exit_point at back_by = 1. -/
def MwE : Machine Unit Nat := { nodes := [{}, { value := some ((), 5) }], cursors := [2] }

/-- One empty root node: the make_nonambiguous_link counterexample links
the root to itself. -/
def M5c : Machine Unit Nat := { nodes := [{}] }

/-- The state after make_nonambiguous_link 1 (sym 0) 1 on M5c: the root —
which is the dst node — gained a self loop. -/
def M5c2 : Machine Unit Nat := { nodes := [{ concrete := [(0, 1)] }] }

/-- Root plus one accepting node, disjoint (for the frame witness). -/
def M5w : Machine Unit Nat := { nodes := [{}, { value := some ((), 0) }] }

/-- M5w after linking the root to node 2 under symbol 0. -/
def M5w2 : Machine Unit Nat :=
  { nodes := [{ concrete := [(0, 2)] }, { value := some ((), 0) }] }

/-- Root with an existing transition 0 -> 2, plus an accepting node 3 to
be linked in watched (for the C5 completeness witness). -/
def M5cw : Machine Unit Nat :=
  { nodes := [{ concrete := [(0, 2)] }, {}, { value := some ((), 0) }] }

/-- M5cw after make_nonambiguous_link 1 (sym 0) 3 [3]: node 2 was cloned
into node 4 (which absorbed node 3's accept record) and installed at the
root. -/
def M5cw2 : Machine Unit Nat :=
  { nodes := [{ concrete := [(0, 4)] }, {}, { value := some ((), 0) },
              { value := some ((), 0) }] }

/-- An Error-policy machine whose only cursor already has a default edge,
colliding with a match_default call. -/
def MdE : Machine Unit Nat := { nodes := [{ deflt := 2 }, {}], cursors := [1] }

/-- The induction payload for the conflict panic of
make_nonambiguous_link: the payload always names exactly one collision
site (the panic is raised immediately at the first collision). -/
def MnalConfl [DecidableEq T] (fuel : Nat) : Prop :=
  ∀ (m : Machine V T) (src : Nat) (k : Key T) (dst : Nat) (w : List Nat)
    (l : List (Nat × Nat)),
    make_nonambiguous_link fuel m src k dst w = .error (.conflictPanic l) → l.length = 1

def MnalGoConfl [DecidableEq T] (fuel : Nat) : Prop :=
  ∀ (entries : List (Key T × Nat)) (m : Machine V T) (nidx cur dst : Nat)
    (w : List Nat) (l : List (Nat × Nat)),
    mnal_go (make_nonambiguous_link fuel) m nidx cur dst w entries
      = .error (.conflictPanic l) → l.length = 1

/-- Induction payload for the watch-node soundness of
make_nonambiguous_link: with no watched nodes the returned replacement
list is empty. -/
def MnalWnil [DecidableEq T] (fuel : Nat) : Prop :=
  ∀ (m : Machine V T) (src : Nat) (k : Key T) (dst : Nat)
    (m2 : Machine V T) (r : List Nat),
    make_nonambiguous_link fuel m src k dst [] = .ok (m2, r) → r = []

def MnalGoWnil [DecidableEq T] (fuel : Nat) : Prop :=
  ∀ (entries : List (Key T × Nat)) (m : Machine V T) (nidx cur dst : Nat)
    (m2 : Machine V T) (r : List Nat),
    mnal_go (make_nonambiguous_link fuel) m nidx cur dst [] entries = .ok (m2, r) →
    r = []

/-- The machine after cdt_phase2 handles one cursor: the clone (with the
immediate self reference rewritten) is pushed and the cursor repointed. -/
def cdt2Step [DecidableEq T] (m : Machine V T) (cursor : Nat) (tr : Key T) : Machine V T :=
  (m.push_node
    (if (m.get_node cursor).getKey tr = cursor then
      (m.get_node ((m.get_node cursor).getKey tr)).setKey tr (m.size + 1)
    else m.get_node ((m.get_node cursor).getKey tr))).set_key cursor tr (m.size + 1)

----------------------------------------------------------------
-- Store lemmas
----------------------------------------------------------------
theorem nthNode_append_lt {l : List (Node V T)} {x : Node V T} {i : Nat} (h : i < l.length) :
    nthNode (l ++ [x]) i = nthNode l i := by
  induction l generalizing i with
  | nil => simp at h
  | cons a rest ih =>
    cases i with
    | zero => rfl
    | succ n => exact ih (by simpa using h)

theorem nthNode_append_self {l : List (Node V T)} {x : Node V T} :
    nthNode (l ++ [x]) l.length = x := by
  induction l with
  | nil => rfl
  | cons a rest ih => exact ih

theorem setNth_length {l : List (Node V T)} {i : Nat} {nd : Node V T} :
    (setNth l i nd).length = l.length := by
  induction l generalizing i with
  | nil => rfl
  | cons a rest ih =>
    cases i with
    | zero => rfl
    | succ n => simpa [setNth] using ih

theorem nthNode_setNth {l : List (Node V T)} {i j : Nat} {nd : Node V T} :
    nthNode (setNth l i nd) j = if i = j ∧ i < l.length then nd else nthNode l j := by
  induction l generalizing i j with
  | nil => simp [setNth]
  | cons a rest ih =>
    cases i with
    | zero =>
      cases j with
      | zero => simp [setNth, nthNode]
      | succ n => simp [setNth, nthNode]
    | succ n =>
      cases j with
      | zero => simp [setNth, nthNode]
      | succ p => simpa [setNth, nthNode, Nat.succ_lt_succ_iff] using ih

theorem mem_setNth {l : List (Node V T)} {i : Nat} {nd y : Node V T}
    (h : y ∈ setNth l i nd) : y = nd ∨ y ∈ l := by
  induction l generalizing i with
  | nil => simp [setNth] at h
  | cons a rest ih =>
    cases i with
    | zero =>
      rcases List.mem_cons.mp h with h | h
      · exact Or.inl h
      · exact Or.inr (List.mem_cons_of_mem _ h)
    | succ n =>
      rcases List.mem_cons.mp h with h | h
      · exact Or.inr (h ▸ List.mem_cons_self _ _)
      · rcases ih h with h | h
        · exact Or.inl h
        · exact Or.inr (List.mem_cons_of_mem _ h)

theorem nthNode_mem_or_empty {l : List (Node V T)} {i : Nat} :
    nthNode l i ∈ l ∨ nthNode l i = emptyNode := by
  induction l generalizing i with
  | nil => exact Or.inr rfl
  | cons a rest ih =>
    cases i with
    | zero => exact Or.inl (List.mem_cons_self _ _)
    | succ n =>
      rcases ih (i := n) with h | h
      · exact Or.inl (List.mem_cons_of_mem _ h)
      · exact Or.inr h

theorem Machine.size_push {m : Machine V T} {nd : Node V T} :
    (m.push_node nd).size = m.size + 1 := by
  simp [Machine.push_node, Machine.size]

theorem Machine.size_set_node {m : Machine V T} {i : Nat} {nd : Node V T} :
    (m.set_node i nd).size = m.size := by
  simp [Machine.set_node, Machine.size, setNth_length]

theorem Machine.size_set_key [DecidableEq T] {m : Machine V T} {i : Nat} {k : Key T}
    {v : Nat} : (m.set_key i k v).size = m.size :=
  Machine.size_set_node

theorem get_node_push_of_le {m : Machine V T} {nd : Node V T} {i : Nat}
    (h1 : 1 ≤ i) (h2 : i ≤ m.size) : (m.push_node nd).get_node i = m.get_node i := by
  have hlt : i - 1 < m.nodes.length := by
    have : m.size = m.nodes.length := rfl
    omega
  exact nthNode_append_lt hlt

theorem get_node_push_self {m : Machine V T} {nd : Node V T} :
    (m.push_node nd).get_node (m.size + 1) = nd := by
  show nthNode (m.nodes ++ [nd]) (m.size + 1 - 1) = nd
  have : m.size + 1 - 1 = m.nodes.length := rfl
  rw [this]
  exact nthNode_append_self

theorem nthNode_oob : ∀ (l : List (Node V T)) (i : Nat), l.length ≤ i →
    nthNode l i = emptyNode := by
  intro l
  induction l with
  | nil => intro i _; rfl
  | cons a rest ih =>
    intro i hle
    cases i with
    | zero => exact absurd hle (by simp)
    | succ n => exact ih n (by simpa using hle)

theorem get_node_push_lt {m : Machine V T} {nd : Node V T} {i : Nat}
    (h : i - 1 < m.size) : (m.push_node nd).get_node i = m.get_node i :=
  nthNode_append_lt h

theorem get_node_lt_of_ne {m : Machine V T} {i : Nat}
    (h : m.get_node i ≠ emptyNode) : i - 1 < m.size := by
  by_contra hge
  push_neg at hge
  exact h (nthNode_oob m.nodes (i - 1) hge)

theorem assocGet_assocSet_self [DecidableEq T] :
    ∀ (l : List (T × Nat)) (t : T) (v : Nat), assocGet (assocSet l t v) t = v := by
  intro l t v
  induction l with
  | nil => simp [assocSet, assocGet]
  | cons p rest ih =>
    obtain ⟨a, b⟩ := p
    simp only [assocSet]
    split
    next hpt => simp [assocGet]
    next hpt =>
      simp only [assocGet]
      rw [if_neg hpt]
      exact ih

theorem Node.getKey_setKey_self [DecidableEq T] (nd : Node V T) (k : Key T) (v : Nat) :
    (nd.setKey k v).getKey k = v := by
  cases k with
  | sym t => exact assocGet_assocSet_self nd.concrete t v
  | deflt => rfl
  | eof => rfl

theorem get_node_set_node {m : Machine V T} {i j : Nat} {nd : Node V T} :
    (m.set_node i nd).get_node j =
      if i - 1 = j - 1 ∧ i - 1 < m.size then nd else m.get_node j := by
  show nthNode (setNth m.nodes (i - 1) nd) (j - 1) = _
  rw [nthNode_setNth]
  rfl

theorem get_node_set_node_ne {m : Machine V T} {i j : Nat} {nd : Node V T}
    (hi : 1 ≤ i) (hj : 1 ≤ j) (hne : i ≠ j) :
    (m.set_node i nd).get_node j = m.get_node j := by
  rw [get_node_set_node, if_neg]
  omega

theorem get_node_set_node_self {m : Machine V T} {i : Nat} {nd : Node V T}
    (hi : 1 ≤ i) (h2 : i ≤ m.size) : (m.set_node i nd).get_node i = nd := by
  rw [get_node_set_node, if_pos]
  exact ⟨rfl, by omega⟩

theorem get_node_set_key_ne [DecidableEq T] {m : Machine V T} {i j : Nat} {k : Key T}
    {v : Nat} (hi : 1 ≤ i) (hj : 1 ≤ j) (hne : i ≠ j) :
    (m.set_key i k v).get_node j = m.get_node j :=
  get_node_set_node_ne hi hj hne

theorem get_node_eq_of_pos {m : Machine V T} {a b : Nat} (h : a - 1 = b - 1) :
    m.get_node a = m.get_node b := by
  show nthNode m.nodes (a - 1) = nthNode m.nodes (b - 1)
  rw [h]

theorem cursors_set_node {m : Machine V T} {i : Nat} {nd : Node V T} :
    (m.set_node i nd).cursors = m.cursors := rfl

theorem conflict_set_node {m : Machine V T} {i : Nat} {nd : Node V T} :
    (m.set_node i nd).on_conflict = m.on_conflict := rfl

theorem NoRef.empty {j : Nat} (h : 1 ≤ j) : NoRef j (emptyNode : Node V T) := by
  refine ⟨?_, ?_, ?_⟩ <;> simp [emptyNode] <;> omega

theorem Unlinked.noRef_get {m : Machine V T} {j : Nat} (h : Unlinked m j) (i : Nat) :
    NoRef j (m.get_node i) := by
  rcases nthNode_mem_or_empty (l := m.nodes) (i := i - 1) with hm | hm
  · exact h.2.1 _ hm
  · show NoRef j (nthNode m.nodes (i - 1))
    rw [hm]
    exact NoRef.empty h.2.2.1

theorem assocGet_ne [DecidableEq T] {l : List (T × Nat)} {t : T} {j : Nat}
    (h : ∀ p ∈ l, p.2 ≠ j) (hj : 1 ≤ j) : assocGet l t ≠ j := by
  induction l with
  | nil => simp [assocGet]; omega
  | cons p rest ih =>
    simp only [assocGet]
    split
    · exact h p (List.mem_cons_self _ _)
    · exact ih (fun q hq => h q (List.mem_cons_of_mem _ hq))

theorem NoRef.getKey_ne [DecidableEq T] {j : Nat} {nd : Node V T} (h : NoRef j nd)
    (hj : 1 ≤ j) (k : Key T) : nd.getKey k ≠ j := by
  cases k with
  | sym t => exact assocGet_ne h.1 hj
  | deflt => exact h.2.1
  | eof => exact h.2.2

theorem mem_assocSet [DecidableEq T] {l : List (T × Nat)} {t : T} {v : Nat} {p : T × Nat}
    (h : p ∈ assocSet l t v) : p = (t, v) ∨ p ∈ l := by
  induction l with
  | nil => simpa [assocSet] using h
  | cons q rest ih =>
    simp only [assocSet] at h
    split at h
    · rcases List.mem_cons.mp h with h | h
      · exact Or.inl h
      · exact Or.inr (List.mem_cons_of_mem _ h)
    · rcases List.mem_cons.mp h with h | h
      · exact Or.inr (h ▸ List.mem_cons_self _ _)
      · rcases ih h with h | h
        · exact Or.inl h
        · exact Or.inr (List.mem_cons_of_mem _ h)

theorem NoRef.setKey [DecidableEq T] {j : Nat} {nd : Node V T} (h : NoRef j nd)
    {k : Key T} {v : Nat} (hv : v ≠ j) : NoRef j (nd.setKey k v) := by
  cases k with
  | sym t =>
    refine ⟨?_, h.2.1, h.2.2⟩
    intro p hp
    rcases mem_assocSet hp with hp | hp
    · rw [hp]; exact hv
    · exact h.1 p hp
  | deflt => exact ⟨h.1, hv, h.2.2⟩
  | eof => exact ⟨h.1, h.2.1, hv⟩

theorem NoRef.mapRefs {j : Nat} {nd : Node V T} (h : NoRef j nd) {f : Nat → Nat}
    (hf : ∀ v, v ≠ j → f v ≠ j) : NoRef j (nd.mapRefs f) := by
  refine ⟨?_, hf _ h.2.1, hf _ h.2.2⟩
  intro p hp
  rcases List.mem_map.mp hp with ⟨q, hq, rfl⟩
  exact hf _ (h.1 q hq)

theorem NoRef.withValue {j : Nat} {nd : Node V T} (h : NoRef j nd)
    {v : Option (V × Nat)} : NoRef j { nd with value := v } := h

theorem NoRef.allEntries_ne {j : Nat} {nd : Node V T} (h : NoRef j nd) :
    ∀ e ∈ nd.allEntries, e.2 ≠ j := by
  intro e he
  unfold Node.allEntries at he
  rcases List.mem_append.mp he with he | he
  · rcases List.mem_append.mp he with he | he
    · rcases List.mem_map.mp he with ⟨q, hq, rfl⟩
      exact h.1 q hq
    · split at he
      · rcases List.mem_singleton.mp he with rfl
        exact h.2.1
      · simp at he
  · split at he
    · rcases List.mem_singleton.mp he with rfl
      exact h.2.2
    · simp at he

theorem NoRef.not_mem_refsOf {j : Nat} {nd : Node V T} (h : NoRef j nd) :
    j ∉ nd.refsOf := by
  intro hj
  unfold Node.refsOf Node.eachEntries at hj
  rcases List.mem_map.mp hj with ⟨e, he, rfl⟩
  rcases List.mem_append.mp he with he | he
  · rcases List.mem_append.mp he with he | he
    · rcases List.mem_map.mp he with ⟨q, hq, rfl⟩
      exact h.1 q (List.mem_filter.mp hq).1 rfl
    · split at he
      · rcases List.mem_singleton.mp he with rfl
        exact h.2.1 rfl
      · simp at he
  · split at he
    · rcases List.mem_singleton.mp he with rfl
      exact h.2.2 rfl
    · simp at he

theorem Unlinked.push {m : Machine V T} {j : Nat} (h : Unlinked m j) {nd : Node V T}
    (hnd : NoRef j nd) : Unlinked (m.push_node nd) j := by
  refine ⟨?_, ?_, h.2.2.1, ?_⟩
  · rw [get_node_push_of_le h.2.2.1 h.2.2.2]; exact h.1
  · intro x hx
    rcases List.mem_append.mp hx with hx | hx
    · exact h.2.1 _ hx
    · rcases List.mem_singleton.mp hx with rfl
      exact hnd
  · rw [Machine.size_push]
    have := h.2.2.2
    omega

theorem Unlinked.set_node {m : Machine V T} {j i : Nat} {nd : Node V T}
    (h : Unlinked m j) (hi1 : 1 ≤ i) (hi : i ≠ j) (hnd : NoRef j nd) :
    Unlinked (m.set_node i nd) j := by
  refine ⟨?_, ?_, h.2.2.1, by rw [Machine.size_set_node]; exact h.2.2.2⟩
  · rw [get_node_set_node_ne hi1 h.2.2.1 hi]; exact h.1
  · intro x hx
    rcases mem_setNth hx with hx | hx
    · exact hx ▸ hnd
    · exact h.2.1 _ hx

theorem Unlinked.set_key [DecidableEq T] {m : Machine V T} {j i : Nat} {k : Key T}
    {v : Nat} (h : Unlinked m j) (hi1 : 1 ≤ i) (hi : i ≠ j) (hv : v ≠ j) :
    Unlinked (m.set_key i k v) j :=
  h.set_node hi1 hi ((h.noRef_get i).setKey hv)

theorem mnalOk_zero [DecidableEq T] : MnalOk (V := V) (T := T) 0 := by
  intro m src k dst w m2 r h
  simp only [make_nonambiguous_link] at h
  split at h
  · exact absurd h (by simp)
  next hg =>
    push_neg at hg
    split at h
    next hct =>
      cases h
      refine ⟨le_of_eq Machine.size_set_key.symm, ?_, by simp, ?_⟩
      · intro i h1 h2 hne
        exact get_node_set_key_ne (by omega) h1 (fun hh => hne hh.symm)
      · intro j hU hsrc hdst
        exact hU.set_key (by omega) hsrc hdst
    next =>
      split at h
      next =>
        cases h
        exact ⟨le_refl _, fun i _ _ _ => rfl, by simp, fun j hU _ _ => hU⟩
      next => exact absurd h (by simp)

theorem mnalGoOk_of_mnalOk [DecidableEq T] (fuel : Nat) (IH : MnalOk (V := V) (T := T) fuel) :
    MnalGoOk (V := V) (T := T) fuel := by
  intro entries
  induction entries with
  | nil =>
    intro m nidx cur dst w m2 r h h1
    simp only [mnal_go] at h
    cases h
    exact ⟨le_refl _, fun i _ _ _ => rfl, by simp, fun j hU _ _ _ => hU⟩
  | cons e rest ih =>
    obtain ⟨k, reference⟩ := e
    intro m nidx cur dst w m2 r h h1
    simp only [mnal_go] at h
    split at h
    next =>
      -- purity rule 1: write current into the clone's slot
      obtain ⟨hs, hf, hfr, hj⟩ := ih _ _ _ _ _ _ _ h h1
      refine ⟨le_trans (le_of_eq Machine.size_set_key.symm) hs, ?_, ?_, ?_⟩
      · intro i hi1 hi2 hne
        rw [hf i hi1 (by rw [Machine.size_set_key]; exact hi2) hne]
        exact get_node_set_key_ne h1 hi1 (fun hh => hne hh.symm)
      · intro x hx
        have := hfr x hx
        rw [Machine.size_set_key] at this
        exact this
      · intro j hU hn hc he
        refine hj j (hU.set_key h1 hn hc) hn hc ?_
        intro q hq
        exact he q (List.mem_cons_of_mem _ hq)
    next =>
      split at h
      next =>
        -- purity rule 2
        obtain ⟨hs, hf, hfr, hj⟩ := ih _ _ _ _ _ _ _ h h1
        refine ⟨le_trans (le_of_eq Machine.size_set_key.symm) hs, ?_, ?_, ?_⟩
        · intro i hi1 hi2 hne
          rw [hf i hi1 (by rw [Machine.size_set_key]; exact hi2) hne]
          exact get_node_set_key_ne h1 hi1 (fun hh => hne hh.symm)
        · intro x hx
          have := hfr x hx
          rw [Machine.size_set_key] at this
          exact this
        · intro j hU hn hc he
          refine hj j (hU.set_key h1 hn hc) hn hc ?_
          intro q hq
          exact he q (List.mem_cons_of_mem _ hq)
      next =>
        split at h
        next =>
          -- both circular: skip
          obtain ⟨hs, hf, hfr, hj⟩ := ih _ _ _ _ _ _ _ h h1
          exact ⟨hs, hf, hfr, fun j hU hn hc he =>
            hj j hU hn hc (fun q hq => he q (List.mem_cons_of_mem _ hq))⟩
        next =>
          split at h
          next =>
            -- null reference: skip
            obtain ⟨hs, hf, hfr, hj⟩ := ih _ _ _ _ _ _ _ h h1
            exact ⟨hs, hf, hfr, fun j hU hn hc he =>
              hj j hU hn hc (fun q hq => he q (List.mem_cons_of_mem _ hq))⟩
          next =>
            -- recursive fuse
            split at h
            · exact absurd h (by simp)
            next mr tr hmr =>
              split at h
              · exact absurd h (by simp)
              next mg tg hmg =>
                cases h
                obtain ⟨hs1, hf1, hfr1, hj1⟩ := IH _ _ _ _ _ _ _ hmr
                obtain ⟨hs2, hf2, hfr2, hj2⟩ := ih _ _ _ _ _ _ _ hmg h1
                refine ⟨le_trans hs1 hs2, ?_, ?_, ?_⟩
                · intro i hi1 hi2 hne
                  rw [hf2 i hi1 (le_trans hi2 hs1) hne]
                  exact hf1 i hi1 hi2 hne
                · intro x hx
                  rcases List.mem_append.mp hx with hx | hx
                  · exact hfr1 x hx
                  · exact lt_of_le_of_lt hs1 (hfr2 x hx)
                · intro j hU hn hc he
                  refine hj2 j (hj1 j hU hn (he (k, reference) (List.mem_cons_self _ _))) hn hc ?_
                  intro q hq
                  exact he q (List.mem_cons_of_mem _ hq)

theorem mnalOk_succ [DecidableEq T] (fuel : Nat) (IHgo : MnalGoOk (V := V) (T := T) fuel) :
    MnalOk (V := V) (T := T) (fuel + 1) := by
  intro m src k dst w m2 r h
  simp only [make_nonambiguous_link] at h
  split at h
  · exact absurd h (by simp)
  next hg =>
    push_neg at hg
    split at h
    next hct =>
      cases h
      refine ⟨le_of_eq Machine.size_set_key.symm, ?_, by simp, ?_⟩
      · intro i h1 h2 hne
        exact get_node_set_key_ne (by omega) h1 (fun hh => hne hh.symm)
      · intro j hU hsrc hdst
        exact hU.set_key (by omega) hsrc hdst
    next hct =>
      split at h
      next =>
        cases h
        exact ⟨le_refl _, fun i _ _ _ => rfl, by simp, fun j hU _ _ => hU⟩
      next hne2 =>
        -- the cloning case
        split at h
        · exact absurd h (by simp)
        next mv hmv =>
          split at h
          · exact absurd h (by simp)
          next mg tg hmg =>
            cases h
            -- names for the pieces
            set ct := (m.get_node src).getKey k with hctdef
            have hnidx : 1 ≤ m.size + 1 := by omega
            -- mv is the machine after the clone push and value merge
            have hmv' : mv.size = m.size + 1 ∧
                (∀ i, 1 ≤ i → i ≤ m.size → mv.get_node i = m.get_node i) ∧
                (∀ j, Unlinked m j → ct ≠ j → dst ≠ j → Unlinked mv j) := by
              have hclone : ∀ j, Unlinked m j → ct ≠ j →
                  NoRef j ((m.get_node ct).mapRefs
                    (fun v => if v = ct then m.size + 1 else v)) := by
                intro j hU hctj
                refine (hU.noRef_get ct).mapRefs ?_
                intro v hv
                split
                · have := hU.2.2.2
                  omega
                · exact hv
              split at hmv
              next hnone =>
                cases hmv
                refine ⟨Machine.size_push, ?_, ?_⟩
                · intro i hi1 hi2
                  exact get_node_push_of_le hi1 hi2
                · intro j hU hctj hdstj
                  exact hU.push (hclone j hU hctj)
              next tv hsome =>
                split at hmv
                next hnone2 =>
                  cases hmv
                  refine ⟨by rw [Machine.size_set_node, Machine.size_push], ?_, ?_⟩
                  · intro i hi1 hi2
                    rw [get_node_set_node_ne hnidx hi1 (by omega)]
                    exact get_node_push_of_le hi1 hi2
                  · intro j hU hctj hdstj
                    have h1 : Unlinked (m.push_node _) j := hU.push (hclone j hU hctj)
                    have := hU.2.2.2
                    exact h1.set_node hnidx (by omega) ((h1.noRef_get _).withValue)
                next =>
                  split at hmv
                  · exact absurd hmv (by simp)
                  · cases hmv
                    refine ⟨Machine.size_push, ?_, ?_⟩
                    · intro i hi1 hi2
                      exact get_node_push_of_le hi1 hi2
                    · intro j hU hctj hdstj
                      exact hU.push (hclone j hU hctj)
                  · cases hmv
                    refine ⟨by rw [Machine.size_set_node, Machine.size_push], ?_, ?_⟩
                    · intro i hi1 hi2
                      rw [get_node_set_node_ne hnidx hi1 (by omega)]
                      exact get_node_push_of_le hi1 hi2
                    · intro j hU hctj hdstj
                      have h1 : Unlinked (m.push_node _) j := hU.push (hclone j hU hctj)
                      have := hU.2.2.2
                      exact h1.set_node hnidx (by omega) ((h1.noRef_get _).withValue)
            obtain ⟨hsv, hfv, hjv⟩ := hmv'
            obtain ⟨hs2, hf2, hfr2, hj2⟩ := IHgo _ _ _ _ _ _ _ _ hmg hnidx
            have hsrc1 : 1 ≤ src := by omega
            refine ⟨?_, ?_, ?_, ?_⟩
            · rw [Machine.size_set_key]
              omega
            · intro i hi1 hi2 hne
              rw [get_node_set_key_ne hsrc1 hi1 (fun hh => hne hh.symm)]
              rw [hf2 i hi1 (by omega) (by omega)]
              exact hfv i hi1 hi2
            · intro x hx
              rcases List.mem_append.mp hx with hx | hx
              · split at hx
                · rcases List.mem_singleton.mp hx with rfl
                  omega
                · split at hx
                  · rcases List.mem_singleton.mp hx with rfl
                    omega
                  · simp at hx
              · have := hfr2 x hx
                omega
            · intro j hU hsrcj hdstj
              have hctj : ct ≠ j :=
                (hU.noRef_get src).getKey_ne hU.2.2.1 k
              have hjle := hU.2.2.2
              have hUv : Unlinked mv j := hjv j hU hctj hdstj
              have hUg : Unlinked mg j := by
                refine hj2 j hUv (by omega) hctj ?_
                exact (hUv.noRef_get dst).allEntries_ne
              exact hUg.set_key hsrc1 hsrcj (by omega)

theorem mnalOk [DecidableEq T] : ∀ fuel, MnalOk (V := V) (T := T) fuel := by
  intro fuel
  induction fuel with
  | zero => exact mnalOk_zero
  | succ n ih => exact mnalOk_succ n (mnalGoOk_of_mnalOk n ih)

theorem mnalWnil_zero [DecidableEq T] : MnalWnil (V := V) (T := T) 0 := by
  intro m src k dst m2 r h
  simp only [make_nonambiguous_link] at h
  split at h
  · simp at h
  · split at h
    · cases h
      rfl
    · split at h
      · cases h
        rfl
      · simp at h

theorem mnalGoWnil_of [DecidableEq T] (fuel : Nat)
    (IH : MnalWnil (V := V) (T := T) fuel) : MnalGoWnil (V := V) (T := T) fuel := by
  intro entries
  induction entries with
  | nil =>
    intro m nidx cur dst m2 r h
    simp only [mnal_go] at h
    cases h
    rfl
  | cons e rest ih =>
    obtain ⟨k, reference⟩ := e
    intro m nidx cur dst m2 r h
    simp only [mnal_go] at h
    split at h
    next => exact ih _ _ _ _ _ _ h
    next =>
      split at h
      next => exact ih _ _ _ _ _ _ h
      next =>
        split at h
        next => exact ih _ _ _ _ _ _ h
        next =>
          split at h
          next => exact ih _ _ _ _ _ _ h
          next =>
            split at h
            next => simp at h
            next x mr tr hmr =>
              split at h
              next => simp at h
              next x2 m3 tr3 hrec =>
                cases h
                have h1 : tr = [] := IH _ _ _ _ _ _ hmr
                have h2 : tr3 = [] := ih _ _ _ _ _ _ hrec
                subst h1
                subst h2
                rfl

theorem mnalWnil_succ [DecidableEq T] (fuel : Nat)
    (IHgo : MnalGoWnil (V := V) (T := T) fuel) : MnalWnil (V := V) (T := T) (fuel + 1) := by
  intro m src k dst m2 r h
  simp only [make_nonambiguous_link] at h
  split at h
  · simp at h
  · split at h
    · cases h
      rfl
    · split at h
      · cases h
        rfl
      · split at h
        · simp at h
        next mv hmv =>
          split at h
          · simp at h
          next mg tg hmg =>
            cases h
            have htg : tg = [] := IHgo _ _ _ _ _ _ _ hmg
            subst htg
            simp

theorem mnalWnil [DecidableEq T] : ∀ fuel, MnalWnil (V := V) (T := T) fuel := by
  intro fuel
  induction fuel with
  | zero => exact mnalWnil_zero
  | succ n ih => exact mnalWnil_succ n (mnalGoWnil_of n ih)

theorem mnal_top_complete [DecidableEq T] (fuel : Nat) (m : Machine V T)
    (src : Nat) (k : Key T) (dst : Nat) (w : List Nat) (m2 : Machine V T) (r : List Nat)
    (h : make_nonambiguous_link fuel m src k dst w = .ok (m2, r))
    (hs1 : 1 ≤ src) (hs2 : src ≤ m.size)
    (hw : dst ∈ w ∨ (m.get_node src).getKey k ∈ w)
    (hct : (m.get_node src).getKey k ≠ 0) (hctd : (m.get_node src).getKey k ≠ dst) :
    ∃ t, r = (m.size + 1) :: t ∧ (m2.get_node src).getKey k = m.size + 1 := by
  cases fuel with
  | zero =>
    simp only [make_nonambiguous_link] at h
    split at h
    · exact absurd h (by simp)
    · exact absurd h (by simp)
  | succ fuel2 =>
    simp only [make_nonambiguous_link] at h
    split at h
    · exact absurd h (by simp)
    next hg =>
      split at h
      next e2 heq => exact absurd h (by simp)
      next mv hmv =>
        split at h
        next e2 heq => exact absurd h (by simp)
        next mg tg hmg =>
          cases h
          have hmvsize : mv.size = m.size + 1 := by
            split at hmv
            next =>
              cases hmv
              exact Machine.size_push
            next tv hsome =>
              split at hmv
              next =>
                cases hmv
                rw [Machine.size_set_node, Machine.size_push]
              next =>
                split at hmv
                · exact absurd hmv (by simp)
                · cases hmv
                  exact Machine.size_push
                · cases hmv
                  rw [Machine.size_set_node, Machine.size_push]
          obtain ⟨hsmg, _, _, _⟩ :=
            mnalGoOk_of_mnalOk fuel2 (mnalOk fuel2) _ _ _ _ _ _ _ _ hmg (by omega)
          have hsrcle : src ≤ mg.size := by omega
          refine ⟨tg, ?_, ?_⟩
          · rcases hw with hd | hcw
            · rw [if_pos hd]
              rfl
            · by_cases hd : dst ∈ w
              · rw [if_pos hd]
                rfl
              · rw [if_neg hd, if_pos hcw]
                rfl
          · rw [show (mg.set_key src k (m.size + 1)).get_node src
                = (mg.get_node src).setKey k (m.size + 1) from
                get_node_set_node_self hs1 hsrcle]
            exact Node.getKey_setKey_self _ _ _

----------------------------------------------------------------
-- Claim C2 — the UTF-8 expansion of match_any_of
----------------------------------------------------------------
/-- C2: the claim says match_any_of decomposes the code point U+00E9 into
its UTF-8 bytes 0xC3 0xA9 and installs one transition per byte.  The code
instead treats the 32-bit value as pre-packed UTF-8 bytes: on the code
point 0xE9 it takes the single-byte branch and trips the MSB assertion,
and even on the pre-packed value 0xC3A9 it masks every byte with
0b10111111, emitting keys 0x83 0xA9 — so the header byte 0xC3 can never be
matched.  (utf8Encode is the UTF-8 encoding the spec describes.) -/
theorem utf8_expansion_asserts_on_codepoint :
    utf8Encode 0xE9 = [0xC3, 0xA9] ∧
    utf8Bytes 0xE9 = .error .msbAssertion ∧
    utf8Bytes 0xC3A9 = .ok [0x83, 0xA9] := by
  refine ⟨by decide, by decide, by decide⟩

----------------------------------------------------------------
-- Claim C3 — find is the greedy longest-match scan the claim states
----------------------------------------------------------------
/-- C3: for every machine and every input, find performs exactly the scan
the claim describes: find_spec is the claim's loop (advance on the
transition for the current symbol, concrete key first then default;
record the node and position i+1 on accept; restart from the root at the
next position on a dead end without a recorded match; stop on a dead end
with one; finally yield the span from match_begin to the recorded end
minus the node's back_by, with the accept value). -/
theorem find_eq_find_spec [DecidableEq T] (m : Machine V T) (input : List T) :
    find m input = find_spec m input := by
  have loop : ∀ (l : List T) (i cur most mb me : Nat),
      find_loop m l i cur most mb me =
        ((find_spec_loop m l i ⟨cur, most, mb, me⟩).most,
          (find_spec_loop m l i ⟨cur, most, mb, me⟩).mbeg,
          (find_spec_loop m l i ⟨cur, most, mb, me⟩).mend) := by
    intro l
    induction l with
    | nil => intro i cur most mb me; rfl
    | cons s rest ih =>
      intro i cur most mb me
      simp only [find_loop, find_spec_loop, find_step]
      by_cases h1 : (m.get_node cur).rt_get_transition s ≠ 0
      · by_cases h2 : (m.get_node ((m.get_node cur).rt_get_transition s)).value.isSome
        · simp only [if_pos h1, if_pos h2]
          exact ih (i + 1) _ _ mb (i + 1)
        · simp only [if_pos h1, if_neg h2]
          exact ih (i + 1) _ most mb me
      · by_cases h3 : most = 0
        · simp only [if_neg h1, if_pos h3]
          exact ih (i + 1) 1 0 (i + 1) (i + 1)
        · simp only [if_neg h1, if_neg h3]
  unfold find find_spec
  rw [loop input 0 1 0 0 0]

----------------------------------------------------------------
-- Claim C9 — find_many never yields an empty range
----------------------------------------------------------------
/-- C9: every result yielded by find_many has a non-empty range: the
iterator clears the remaining data when a loaded result's range is empty
(terminating no-match, or a success whose span back_by emptied), and a
result is only yielded while the remaining data is non-empty. -/
theorem find_many_no_empty_ranges [DecidableEq T] (m : Machine V T) (input : List T)
    (r : FindRes V) (h : r ∈ find_many m input) : r.range_size ≠ 0 := by
  unfold find_many at h
  generalize input.length + 1 = fuel at h
  induction fuel generalizing input with
  | zero => simp [find_many_go] at h
  | succ n ih =>
    simp only [find_many_go] at h
    by_cases hz : (find m input).range_size = 0
    · simp [hz] at h
    · simp only [hz, if_neg, if_false] at h
      by_cases hd : (input.drop (find m input).range_end).length = 0
      · simp [hd] at h
      · simp only [hd, if_neg, if_false] at h
        rcases List.mem_cons.mp h with h | h
        · exact h ▸ hz
        · exact ih _ h

/-- Witness for C9 at a concrete machine and input. -/
theorem find_many_no_empty_ranges_witness :
    FindRes.found 0 1 () ∈ find_many W9 [0, 5] ∧
      (FindRes.found (V := Unit) 0 1 ()).range_size ≠ 0 :=
  ⟨by decide, find_many_no_empty_ranges W9 [0, 5] _ (by decide)⟩

----------------------------------------------------------------
-- Claim C10 — matches on the empty input
----------------------------------------------------------------
/-- C10: on the empty input (INCLUDE_EOF = false) matches succeeds with
the root's value iff the root node (index 1) carries an accept record, and
in particular never reports a UTF-8 error (the validator starts and ends
with zero expected continuation bytes). -/
theorem matches_empty_input_root_accept (m : Machine V Nat) :
    matchesB m [] =
      (match (m.get_node 1).value with
        | some (v, _) => .matched v
        | none => .noMatch) := by
  simp [matchesB, matchesB_go, uv_final]

----------------------------------------------------------------
-- Claim C4 — UTF-8 malformation reporting
----------------------------------------------------------------
/-- C4 counterexample: the input 97 98 128 contains a malformed sequence
(the stray continuation byte 128), yet find on the machine accepting the
byte 97 yields a successful match, not a UTF-8 error: the scan breaks at
the dead end after the recorded match and never feeds 128 to the
validator.  The claim requires a UTF-8 error regardless. -/
theorem utf8_error_missed_after_break :
    utf8Valid [97, 98, 128] = false ∧ findB MB4 [97, 98, 128] = .found 0 1 () := by
  refine ⟨by decide, by decide⟩

/-- C4 amended: matches validates every byte it consumes and succeeds only
on wholly well-formed UTF-8 input; find and matches report malformed bytes
only up to the point where their scan stops. -/
theorem matchesB_success_implies_valid_utf8 (m : Machine V Nat) (input : List Nat) (v : V)
    (h : matchesB m input = .matched v) : utf8Valid input = true := by
  have go : ∀ (l : List Nat) (cur count : Nat),
      matchesB_go m l cur count = .matched v → utf8Valid_go count l = true := by
    intro l
    induction l with
    | nil =>
      intro cur count hh
      simp only [matchesB_go, uv_final] at hh
      by_cases hc : count ≠ 0
      · simp [hc] at hh
      · simpa [utf8Valid_go] using hc
    | cons c rest ih =>
      intro cur count hh
      simp only [matchesB_go] at hh
      cases huv : uv_next count c with
      | error e => simp [huv] at hh
      | ok count2 =>
        simp only [huv] at hh
        by_cases hn : (m.get_node cur).rt_get_transition c ≠ 0
        · rw [if_pos hn] at hh
          simpa [utf8Valid_go, huv] using ih _ _ hh
        · rw [if_neg hn] at hh
          exact absurd hh (by simp)
  exact go input 1 0 h

/-- Witness for the amended C4 at a concrete machine and input. -/
theorem matchesB_success_implies_valid_utf8_witness :
    matchesB MB4 [97] = .matched () ∧ utf8Valid [97] = true :=
  ⟨by decide, matchesB_success_implies_valid_utf8 MB4 [97] () (by decide)⟩

----------------------------------------------------------------
-- Claim C7 — the cursor rewrite of nullify_orphans
----------------------------------------------------------------
/-- C7: the claim (and the spec) say nullify_orphans rewrites every cursor
whose node became unreachable to 0 and compacts, leaving only reachable
indices.  The code tests reachables[c] where every other use of the
bitmap indexes it with c - 1: on M7 node 2 is unreachable (the bitmap is
true, false, true) and gets nullified, yet its cursor survives because
slot 2 — node 3's slot — is consulted.  The resulting cursor list contains
the index of an unreachable, nullified node. -/
theorem nullify_orphans_cursor_offby1 :
    computeReach M7 = [true, false, true] ∧
    (M7.get_node 2).is_null = false ∧
    (nullify_orphans M7).cursors = [2] ∧
    ((nullify_orphans M7).get_node 2).is_null = true := by
  refine ⟨by decide, by decide, by decide, by decide⟩

----------------------------------------------------------------
-- Claim C5 — the frame contract of make_nonambiguous_link
----------------------------------------------------------------
/-- C5 counterexample: when the from node lies inside the dst sub-graph
(here from = dst = 1, a call match_many_optionally makes when wiring a
one-symbol pattern's terminal back to the pattern root), the call mutates
the dst node itself: no clone is made in the current_target = 0 case, the
transition is written directly into from. -/
theorem mnal_mutates_dst_when_from_in_subgraph :
    make_nonambiguous_link 9 M5c 1 (Key.sym 0) 1 [] = .ok (M5c2, []) ∧
    1 ∈ reachClosure M5c 1 ∧
    M5c2.get_node 1 ≠ M5c.get_node 1 := by
  refine ⟨by decide, by decide, by decide⟩

/-- C5 amended: for every successful make_nonambiguous_link call, (1)
when the from node is not dst and not reachable from dst (and the dst
sub-graph lies inside the store), dst and every node reachable from dst
are left unchanged; (2) every returned replacement node is freshly
allocated (index beyond the original store); (3) with no watched nodes
nothing is returned; and (4) when dst — or the displaced pre-existing
target — is watched and the call clones, the clone standing in for it
heads the returned list and is the node now installed under the
transition (the guarantee cursor_discreet_transition relies on for
replacements[0]). -/
theorem make_nonambiguous_link_frame [DecidableEq T] (fuel : Nat) (m : Machine V T)
    (src : Nat) (k : Key T) (dst : Nat) (w : List Nat) (m2 : Machine V T) (r : List Nat)
    (h : make_nonambiguous_link fuel m src k dst w = .ok (m2, r)) :
    ((∀ i ∈ reachClosure m dst, 1 ≤ i ∧ i ≤ m.size ∧ i ≠ src) →
      ∀ i ∈ reachClosure m dst, m2.get_node i = m.get_node i) ∧
    (∀ x ∈ r, m.size < x) ∧
    (w = [] → r = []) ∧
    (1 ≤ src → src ≤ m.size →
      (dst ∈ w ∨ (m.get_node src).getKey k ∈ w) →
      (m.get_node src).getKey k ≠ 0 → (m.get_node src).getKey k ≠ dst →
      ∃ t, r = (m.size + 1) :: t ∧ (m2.get_node src).getKey k = m.size + 1) := by
  obtain ⟨_, hframe, hfresh, _⟩ := mnalOk fuel m src k dst w m2 r h
  refine ⟨?_, hfresh, ?_, ?_⟩
  · intro hsub i hi
    exact hframe i (hsub i hi).1 (hsub i hi).2.1 (hsub i hi).2.2
  · intro hw
    subst hw
    exact mnalWnil fuel m src k dst m2 r h
  · intro hs1 hs2 hw hct hctd
    exact mnal_top_complete fuel m src k dst w m2 r h hs1 hs2 hw hct hctd

/-- Witness for the amended C5: a concrete frame-and-soundness run (M5w,
empty watch list) and a concrete watched-clone run (M5cw, dst watched). -/
theorem make_nonambiguous_link_frame_witness :
    (make_nonambiguous_link 9 M5w 1 (Key.sym 0) 2 [] = .ok (M5w2, []) ∧
      (∀ i ∈ reachClosure M5w 2, M5w2.get_node i = M5w.get_node i) ∧
      ([] : List Nat) = []) ∧
    (make_nonambiguous_link 9 M5cw 1 (Key.sym 0) 3 [3] = .ok (M5cw2, [4]) ∧
      ∃ t, ([4] : List Nat) = (M5cw.size + 1) :: t ∧
        (M5cw2.get_node 1).getKey (Key.sym 0) = M5cw.size + 1) := by
  refine ⟨⟨by decide, ?_, ?_⟩, by decide, ?_⟩
  · exact (make_nonambiguous_link_frame 9 M5w 1 (Key.sym 0) 2 [] M5w2 []
      (by decide)).1 (by decide)
  · exact (make_nonambiguous_link_frame 9 M5w 1 (Key.sym 0) 2 [] M5w2 []
      (by decide)).2.2.1 rfl
  · exact (make_nonambiguous_link_frame 9 M5cw 1 (Key.sym 0) 3 [3] M5cw2 [4]
      (by decide)).2.2.2 (by decide) (by decide) (Or.inl (by decide))
      (by decide) (by decide)

----------------------------------------------------------------
-- Claim C6 — conflict policy resolution
----------------------------------------------------------------
theorem exit_point_go_skip [DecidableEq T] (back_by : Nat) :
    ∀ (cs : List Nat) (m : Machine Unit T) (errors : List Nat),
      m.on_conflict = .Skip →
      (exit_point_go back_by m errors cs).2 = errors ∧
      (∀ i x, (m.get_node i).value = some x →
        ((exit_point_go back_by m errors cs).1.get_node i).value = some x) := by
  intro cs
  induction cs with
  | nil => intro m errors hpol; exact ⟨rfl, fun i x hx => hx⟩
  | cons cur rest ih =>
    intro m errors hpol
    cases hv : (m.get_node cur).value with
    | some pr =>
      obtain ⟨u, old_bb⟩ := pr
      simp only [exit_point_go, hv]
      by_cases hbb : old_bb ≠ back_by
      · rw [if_pos hbb, hpol]
        exact ih m errors hpol
      · rw [if_neg hbb]
        exact ih m errors hpol
    | none =>
      simp only [exit_point_go, hv]
      have hpol2 : (m.set_node cur
          { m.get_node cur with value := some ((), back_by) }).on_conflict = .Skip := hpol
      obtain ⟨ih1, ih2⟩ := ih _ errors hpol2
      refine ⟨ih1, ?_⟩
      intro i x hx
      refine ih2 i x ?_
      rw [get_node_set_node]
      split
      next hcond =>
        exfalso
        have hpos : m.get_node i = m.get_node cur := get_node_eq_of_pos hcond.1.symm
        rw [hpos, hv] at hx
        exact Option.noConfusion hx
      next => exact hx

theorem exit_point_go_overwrite [DecidableEq T] (back_by : Nat) :
    ∀ (cs : List Nat) (m : Machine Unit T) (errors : List Nat),
      m.on_conflict = .Overwrite →
      (exit_point_go back_by m errors cs).2 = errors ∧
      (∀ i, ((exit_point_go back_by m errors cs).1.get_node i).value = (m.get_node i).value ∨
        ((exit_point_go back_by m errors cs).1.get_node i).value = some ((), back_by)) ∧
      (∀ c ∈ cs, 1 ≤ c → c ≤ m.size →
        ((exit_point_go back_by m errors cs).1.get_node c).value = some ((), back_by)) := by
  intro cs
  induction cs with
  | nil => intro m errors hpol; exact ⟨rfl, fun i => Or.inl rfl, by simp⟩
  | cons cur rest ih =>
    intro m errors hpol
    cases hv : (m.get_node cur).value with
    | some pr =>
      obtain ⟨u, old_bb⟩ := pr
      simp only [exit_point_go, hv]
      by_cases hbb : old_bb ≠ back_by
      · rw [if_pos hbb, hpol]
        have hpol2 : (m.set_node cur
            { m.get_node cur with value := some ((), back_by) }).on_conflict
            = .Overwrite := hpol
        obtain ⟨ih1, ih2, ih3⟩ := ih _ errors hpol2
        refine ⟨ih1, ?_, ?_⟩
        · intro i
          rcases ih2 i with hi | hi
          · rw [hi, get_node_set_node]
            split
            next hcond =>
              exact Or.inr rfl
            next => exact Or.inl rfl
          · exact Or.inr hi
        · intro c hc hc1 hc2
          rcases List.mem_cons.mp hc with rfl | hc
          · rcases ih2 c with hi | hi
            · rw [hi, get_node_set_node_self hc1 hc2]
            · exact hi
          · exact ih3 c hc hc1 (by rw [Machine.size_set_node] at *; exact hc2)
      · rw [if_neg hbb]
        push_neg at hbb
        obtain ⟨ih1, ih2, ih3⟩ := ih m errors hpol
        refine ⟨ih1, ih2, ?_⟩
        intro c hc hc1 hc2
        rcases List.mem_cons.mp hc with rfl | hc
        · rcases ih2 c with hi | hi
          · rw [hi, hv, hbb]
          · exact hi
        · exact ih3 c hc hc1 hc2
    | none =>
      simp only [exit_point_go, hv]
      have hpol2 : (m.set_node cur
          { m.get_node cur with value := some ((), back_by) }).on_conflict
          = .Overwrite := hpol
      obtain ⟨ih1, ih2, ih3⟩ := ih _ errors hpol2
      refine ⟨ih1, ?_, ?_⟩
      · intro i
        rcases ih2 i with hi | hi
        · rw [hi, get_node_set_node]
          split
          next hcond => exact Or.inr rfl
          next => exact Or.inl rfl
        · exact Or.inr hi
      · intro c hc hc1 hc2
        rcases List.mem_cons.mp hc with rfl | hc
        · rcases ih2 c with hi | hi
          · rw [hi, get_node_set_node_self hc1 hc2]
          · exact hi
        · exact ih3 c hc hc1 (by rw [Machine.size_set_node] at *; exact hc2)

theorem exit_point_go_error [DecidableEq T] (back_by : Nat) :
    ∀ (cs : List Nat) (m : Machine Unit T) (errors : List Nat),
      m.on_conflict = .Error →
      (exit_point_go back_by m errors cs).2 = errors ++ cs.filter (fun c =>
        match (m.get_node c).value with
        | some (_, old_bb) => old_bb != back_by
        | none => false) := by
  intro cs
  induction cs with
  | nil => intro m errors hpol; simp [exit_point_go]
  | cons cur rest ih =>
    intro m errors hpol
    cases hv : (m.get_node cur).value with
    | some pr =>
      obtain ⟨u, old_bb⟩ := pr
      simp only [exit_point_go, hv, List.filter_cons]
      by_cases hbb : old_bb ≠ back_by
      · rw [if_pos hbb, hpol]
        rw [ih m (errors ++ [cur]) hpol]
        have hdec : (old_bb != back_by) = true := by
          simpa using hbb
        simp [hdec]
      · rw [if_neg hbb]
        rw [ih m errors hpol]
        have hdec : (old_bb != back_by) = false := by
          simpa using hbb
        simp [hdec]
    | none =>
      simp only [exit_point_go, hv, List.filter_cons]
      have hpol2 : (m.set_node cur
          { m.get_node cur with value := some ((), back_by) }).on_conflict = .Error := hpol
      rw [ih _ errors hpol2]
      have hfc : ∀ c ∈ rest,
          (match ((m.set_node cur { m.get_node cur with
              value := some ((), back_by) }).get_node c).value with
            | some (_, old_bb) => old_bb != back_by
            | none => false)
          = (match (m.get_node c).value with
            | some (_, old_bb) => old_bb != back_by
            | none => false) := by
        intro c _
        by_cases hpos : cur - 1 = c - 1 ∧ cur - 1 < m.size
        · rw [get_node_set_node, if_pos hpos]
          have hcc : m.get_node c = m.get_node cur := get_node_eq_of_pos hpos.1.symm
          rw [hcc, hv]
          simp
        · rw [get_node_set_node, if_neg hpos]
      rw [List.filter_congr hfc]
      simp

theorem match_default_go_skip (didx : Nat) :
    ∀ (cs : List Nat) (m : Machine V T) (nc errors : List Nat),
      m.on_conflict = .Skip →
      (match_default_go didx m nc errors cs).2.2 = errors ∧
      (∀ i, (m.get_node i).deflt ≠ 0 →
        ((match_default_go didx m nc errors cs).1.get_node i).deflt
          = (m.get_node i).deflt) := by
  intro cs
  induction cs with
  | nil => intro m nc errors hpol; exact ⟨rfl, fun i _ => rfl⟩
  | cons cur rest ih =>
    intro m nc errors hpol
    by_cases hd : (m.get_node cur).deflt = 0
    · simp only [match_default_go]
      rw [if_pos hd]
      have hpol2 : (m.set_node cur
          { m.get_node cur with deflt := didx }).on_conflict = .Skip := hpol
      obtain ⟨ih1, ih2⟩ := ih _ nc errors hpol2
      refine ⟨ih1, ?_⟩
      intro i hi
      have hne : (m.set_node cur { m.get_node cur with deflt := didx }).get_node i
          = m.get_node i := by
        rw [get_node_set_node]
        split
        next hcond =>
          exfalso
          have hpos : m.get_node i = m.get_node cur := get_node_eq_of_pos hcond.1.symm
          rw [hpos] at hi
          exact hi hd
        next => rfl
      rw [← hne]
      exact ih2 i (by rw [hne]; exact hi)
    · simp only [match_default_go]
      rw [if_neg hd, hpol]
      exact ih m (nc ++ [(m.get_node cur).deflt]) errors hpol

theorem match_default_go_overwrite (didx : Nat) :
    ∀ (cs : List Nat) (m : Machine V T) (nc errors : List Nat),
      m.on_conflict = .Overwrite →
      (match_default_go didx m nc errors cs).2.2 = errors ∧
      (∀ i, ((match_default_go didx m nc errors cs).1.get_node i).deflt
          = (m.get_node i).deflt ∨
        ((match_default_go didx m nc errors cs).1.get_node i).deflt = didx) ∧
      (∀ c ∈ cs, 1 ≤ c → c ≤ m.size →
        ((match_default_go didx m nc errors cs).1.get_node c).deflt = didx) := by
  intro cs
  induction cs with
  | nil => intro m nc errors hpol; exact ⟨rfl, fun i => Or.inl rfl, by simp⟩
  | cons cur rest ih =>
    intro m nc errors hpol
    have hpol2 : (m.set_node cur
        { m.get_node cur with deflt := didx }).on_conflict = .Overwrite := hpol
    obtain ⟨ih1, ih2, ih3⟩ :=
      ih (m.set_node cur { m.get_node cur with deflt := didx }) nc errors hpol2
    have hmid : ∀ i,
        ((match_default_go didx (m.set_node cur { m.get_node cur with deflt := didx })
          nc errors rest).1.get_node i).deflt = (m.get_node i).deflt ∨
        ((match_default_go didx (m.set_node cur { m.get_node cur with deflt := didx })
          nc errors rest).1.get_node i).deflt = didx := by
      intro i
      rcases ih2 i with hi | hi
      · rw [hi, get_node_set_node]
        split
        next hcond => exact Or.inr rfl
        next => exact Or.inl rfl
      · exact Or.inr hi
    have hmem : ∀ c ∈ cur :: rest, 1 ≤ c → c ≤ m.size →
        ((match_default_go didx (m.set_node cur { m.get_node cur with deflt := didx })
          nc errors rest).1.get_node c).deflt = didx := by
      intro c hc hc1 hc2
      rcases List.mem_cons.mp hc with rfl | hc
      · rcases ih2 c with hi | hi
        · rw [hi, get_node_set_node_self hc1 hc2]
        · exact hi
      · exact ih3 c hc hc1 (by rw [Machine.size_set_node] at *; exact hc2)
    by_cases hd : (m.get_node cur).deflt = 0
    · simp only [match_default_go]
      rw [if_pos hd]
      exact ⟨ih1, hmid, hmem⟩
    · simp only [match_default_go]
      rw [if_neg hd, hpol]
      exact ⟨ih1, hmid, hmem⟩

theorem match_default_go_error (didx : Nat) :
    ∀ (cs : List Nat) (m : Machine V T) (nc errors : List Nat),
      m.on_conflict = .Error → cs.Nodup → (∀ c ∈ cs, 1 ≤ c) →
      (match_default_go didx m nc errors cs).2.2
        = errors ++ cs.filter (fun c => (m.get_node c).deflt != 0) := by
  intro cs
  induction cs with
  | nil => intro m nc errors hpol _ _; simp [match_default_go]
  | cons cur rest ih =>
    intro m nc errors hpol hnd hge
    have hnd2 : rest.Nodup := (List.nodup_cons.mp hnd).2
    have hcur : cur ∉ rest := (List.nodup_cons.mp hnd).1
    have hge2 : ∀ c ∈ rest, 1 ≤ c := fun c hc => hge c (List.mem_cons_of_mem _ hc)
    by_cases hd : (m.get_node cur).deflt = 0
    · simp only [match_default_go, List.filter_cons]
      rw [if_pos hd]
      have hpol2 : (m.set_node cur
          { m.get_node cur with deflt := didx }).on_conflict = .Error := hpol
      rw [ih _ nc errors hpol2 hnd2 hge2]
      have hfc : ∀ c ∈ rest,
          (((m.set_node cur { m.get_node cur with deflt := didx }).get_node c).deflt != 0)
            = ((m.get_node c).deflt != 0) := by
        intro c hc
        have hcc : ¬(cur - 1 = c - 1 ∧ cur - 1 < m.size) := by
          intro hcond
          obtain ⟨hc1, _⟩ := hcond
          have h1 : 1 ≤ cur := hge cur (List.mem_cons_self _ _)
          have h2 : 1 ≤ c := hge2 c hc
          have heq : cur = c := by omega
          exact hcur (heq ▸ hc)
        rw [get_node_set_node, if_neg hcc]
      rw [List.filter_congr hfc]
      have hdec : ((m.get_node cur).deflt != 0) = false := by simpa using hd
      simp [hdec]
    · simp only [match_default_go, List.filter_cons]
      rw [if_neg hd, hpol]
      rw [ih m nc (errors ++ [cur]) hpol hnd2 hge2]
      have hdec : ((m.get_node cur).deflt != 0) = true := by simpa using hd
      simp [hdec]

theorem mnalConfl_zero [DecidableEq T] : MnalConfl (V := V) (T := T) 0 := by
  intro m src k dst w l h
  simp only [make_nonambiguous_link] at h
  split at h
  · simp at h
  · split at h
    · simp at h
    · split at h
      · simp at h
      · simp at h

theorem mnalGoConfl_of [DecidableEq T] (fuel : Nat)
    (IH : MnalConfl (V := V) (T := T) fuel) : MnalGoConfl (V := V) (T := T) fuel := by
  intro entries
  induction entries with
  | nil =>
    intro m nidx cur dst w l h
    simp only [mnal_go] at h
    exact absurd h (by simp)
  | cons e rest ih =>
    obtain ⟨k, reference⟩ := e
    intro m nidx cur dst w l h
    simp only [mnal_go] at h
    split at h
    next => exact ih _ _ _ _ _ _ h
    next =>
      split at h
      next => exact ih _ _ _ _ _ _ h
      next =>
        split at h
        next => exact ih _ _ _ _ _ _ h
        next =>
          split at h
          next => exact ih _ _ _ _ _ _ h
          next =>
            split at h
            next e2 heq =>
              cases h
              exact IH _ _ _ _ _ _ heq
            next x mr tr hmr =>
              split at h
              next e2 heq =>
                cases h
                exact ih _ _ _ _ _ _ heq
              next => simp at h

theorem mnalConfl_succ [DecidableEq T] (fuel : Nat)
    (IHgo : MnalGoConfl (V := V) (T := T) fuel) : MnalConfl (V := V) (T := T) (fuel + 1) := by
  intro m src k dst w l h
  simp only [make_nonambiguous_link] at h
  split at h
  · simp at h
  · split at h
    · simp at h
    · split at h
      · simp at h
      · split at h
        next e2 heq =>
          cases h
          split at heq
          · simp at heq
          · split at heq
            · simp at heq
            · split at heq
              · cases heq
                rfl
              · simp at heq
              · simp at heq
        next mv hmv =>
          split at h
          next e2 heq =>
            cases h
            exact IHgo _ _ _ _ _ _ _ heq
          next => simp at h

theorem mnalConfl [DecidableEq T] :
    ∀ fuel, MnalConfl (V := V) (T := T) fuel := by
  intro fuel
  induction fuel with
  | zero => exact mnalConfl_zero
  | succ n ih => exact mnalConfl_succ n (mnalGoConfl_of n ih)

/-- C6 counterexample: one make_nonambiguous_link call on M6 contains two
value collision sites — witnessed by the Skip and Overwrite runs of the
same call producing different values at both clone nodes 6 and 7 — yet
under the Error policy the call panics at once with a payload naming just
the first site (1, 3): the collisions of the call are not accumulated
into one multi-collision panic as the claim states. -/
theorem mnal_panics_on_first_collision_only :
    make_nonambiguous_link 9 M6 1 (Key.sym 0) 3 [] = .error (.conflictPanic [(1, 3)]) ∧
    make_nonambiguous_link 9 (M6.conflict .Skip) 1 (Key.sym 0) 3 [] = .ok (M6skip, []) ∧
    make_nonambiguous_link 9 (M6.conflict .Overwrite) 1 (Key.sym 0) 3 [] =
      .ok (M6over, []) ∧
    (M6skip.get_node 6).value ≠ (M6over.get_node 6).value ∧
    (M6skip.get_node 7).value ≠ (M6over.get_node 7).value := by
  refine ⟨by decide, by decide, by decide, by decide, by decide⟩

/-- C6 amended: exit_point and match_default each accumulate every
collision of the call and raise a single panic after their loop (a panic
occurs iff at least one collision occurred); Skip preserves the earlier
value or default edge and never fails; Overwrite installs the later and
never fails; but make_nonambiguous_link under the Error policy panics
immediately at the first value collision, its payload naming exactly that
one site. -/
theorem conflict_policy_resolution {V T : Type} [DecidableEq T] :
    (∀ (m : Machine Unit T) (back_by : Nat),
      (m.on_conflict = .Error →
        (collisionsOf m back_by ≠ [] →
          exit_point m back_by = .error (.exitPanic (collisionsOf m back_by))) ∧
        (collisionsOf m back_by = [] → ∃ mr, exit_point m back_by = .ok mr)) ∧
      (m.on_conflict = .Skip →
        ∃ mr, exit_point m back_by = .ok mr ∧
          ∀ i x, (m.get_node i).value = some x → (mr.get_node i).value = some x) ∧
      (m.on_conflict = .Overwrite →
        ∃ mr, exit_point m back_by = .ok mr ∧
          ∀ c ∈ m.cursors, 1 ≤ c → c ≤ m.size →
            (mr.get_node c).value = some ((), back_by))) ∧
    (∀ (m : Machine V T),
      (m.on_conflict = .Error → m.cursors.Nodup →
          (∀ c ∈ m.cursors, 1 ≤ c ∧ c ≤ m.size) →
        (defCollisionsOf m ≠ [] →
          match_default m = .error (.defaultPanic (defCollisionsOf m))) ∧
        (defCollisionsOf m = [] → ∃ mr, match_default m = .ok mr)) ∧
      (m.on_conflict = .Skip →
        ∃ mr, match_default m = .ok mr ∧
          ∀ i, (m.get_node i).deflt ≠ 0 →
            (mr.get_node i).deflt = (m.get_node i).deflt) ∧
      (m.on_conflict = .Overwrite →
        ∃ mr, match_default m = .ok mr ∧
          ∀ c ∈ m.cursors, 1 ≤ c → c ≤ m.size →
            (mr.get_node c).deflt = m.size + 1)) ∧
    (∀ (fuel : Nat) (m : Machine V T) (src : Nat) (k : Key T) (dst : Nat)
      (w : List Nat) (l : List (Nat × Nat)),
      make_nonambiguous_link fuel m src k dst w = .error (.conflictPanic l) →
      l.length = 1) := by
  refine ⟨?_, ?_, ?_⟩
  · intro m back_by
    refine ⟨?_, ?_, ?_⟩
    · intro hpol
      have he := exit_point_go_error back_by m.cursors m [] hpol
      have hcoll : (exit_point_go back_by m [] m.cursors).2 = collisionsOf m back_by := by
        rw [he]
        rfl
      constructor
      · intro hne
        simp only [exit_point]
        rw [hcoll, if_pos hne]
      · intro heq
        refine ⟨(exit_point_go back_by m [] m.cursors).1, ?_⟩
        simp only [exit_point]
        rw [hcoll, if_neg (by simp [heq])]
    · intro hpol
      obtain ⟨h1, h2⟩ := exit_point_go_skip back_by m.cursors m [] hpol
      refine ⟨(exit_point_go back_by m [] m.cursors).1, ?_, h2⟩
      simp only [exit_point]
      rw [h1]
      simp
    · intro hpol
      obtain ⟨h1, h2, h3⟩ := exit_point_go_overwrite back_by m.cursors m [] hpol
      refine ⟨(exit_point_go back_by m [] m.cursors).1, ?_, h3⟩
      simp only [exit_point]
      rw [h1]
      simp
  · intro m
    have hcur : (m.push_node emptyNode).cursors = m.cursors := rfl
    refine ⟨?_, ?_, ?_⟩
    · intro hpol hnd hbound
      have hpol1 : (m.push_node emptyNode).on_conflict = .Error := hpol
      have he := match_default_go_error (m.size + 1) m.cursors (m.push_node emptyNode)
        [m.size + 1] [] hpol1 hnd (fun c hc => (hbound c hc).1)
      have hfc : ∀ c ∈ m.cursors,
          (((m.push_node emptyNode).get_node c).deflt != 0)
            = ((m.get_node c).deflt != 0) := by
        intro c hc
        rw [get_node_push_of_le (hbound c hc).1 (hbound c hc).2]
      have hcoll : (match_default_go (m.size + 1) (m.push_node emptyNode)
          [m.size + 1] [] m.cursors).2.2 = defCollisionsOf m := by
        rw [he]
        simp only [List.nil_append, defCollisionsOf]
        exact List.filter_congr hfc
      constructor
      · intro hne
        simp only [match_default]
        rw [hcur, hcoll, if_pos hne]
      · intro heq
        refine ⟨{ (match_default_go (m.size + 1) (m.push_node emptyNode)
            [m.size + 1] [] m.cursors).1 with
            cursors := (match_default_go (m.size + 1) (m.push_node emptyNode)
            [m.size + 1] [] m.cursors).2.1 }, ?_⟩
        simp only [match_default]
        rw [hcur, hcoll, if_neg (by simp [heq])]
    · intro hpol
      have hpol1 : (m.push_node emptyNode).on_conflict = .Skip := hpol
      obtain ⟨h1, h2⟩ := match_default_go_skip (m.size + 1) m.cursors
        (m.push_node emptyNode) [m.size + 1] [] hpol1
      refine ⟨{ (match_default_go (m.size + 1) (m.push_node emptyNode)
          [m.size + 1] [] m.cursors).1 with
          cursors := (match_default_go (m.size + 1) (m.push_node emptyNode)
          [m.size + 1] [] m.cursors).2.1 }, ?_, ?_⟩
      · simp only [match_default]
        rw [hcur, if_neg (by simp [h1])]
      · intro i hi
        have hne : m.get_node i ≠ emptyNode := by
          intro hemp
          rw [hemp] at hi
          exact hi rfl
        have hpi : (m.push_node emptyNode).get_node i = m.get_node i :=
          get_node_push_lt (get_node_lt_of_ne hne)
        show ((match_default_go (m.size + 1) (m.push_node emptyNode)
            [m.size + 1] [] m.cursors).1.get_node i).deflt = (m.get_node i).deflt
        rw [← hpi]
        exact h2 i (by rw [hpi]; exact hi)
    · intro hpol
      have hpol1 : (m.push_node emptyNode).on_conflict = .Overwrite := hpol
      obtain ⟨h1, h2, h3⟩ := match_default_go_overwrite (m.size + 1) m.cursors
        (m.push_node emptyNode) [m.size + 1] [] hpol1
      refine ⟨{ (match_default_go (m.size + 1) (m.push_node emptyNode)
          [m.size + 1] [] m.cursors).1 with
          cursors := (match_default_go (m.size + 1) (m.push_node emptyNode)
          [m.size + 1] [] m.cursors).2.1 }, ?_, ?_⟩
      · simp only [match_default]
        rw [hcur, if_neg (by simp [h1])]
      · intro c hc hc1 hc2
        show ((match_default_go (m.size + 1) (m.push_node emptyNode)
            [m.size + 1] [] m.cursors).1.get_node c).deflt = m.size + 1
        exact h3 c hc hc1 (by rw [Machine.size_push]; omega)
  · intro fuel m src k dst w l h
    exact mnalConfl fuel m src k dst w l h

/-- Witness for the amended C6: on MwE (Error policy, one colliding
cursor) exit_point panics with exactly the accumulated collision list, and
on MdE (Error policy, one cursor whose node already has a default edge)
match_default panics with exactly the accumulated collision list. -/
theorem conflict_policy_resolution_witness :
    (MwE.on_conflict = .Error ∧ collisionsOf MwE 1 ≠ [] ∧
      exit_point MwE 1 = .error (.exitPanic (collisionsOf MwE 1))) ∧
    (MdE.on_conflict = .Error ∧ defCollisionsOf MdE ≠ [] ∧
      match_default MdE = .error (.defaultPanic (defCollisionsOf MdE))) := by
  refine ⟨⟨rfl, by decide, ?_⟩, rfl, by decide, ?_⟩
  · exact (((conflict_policy_resolution (V := Unit) (T := Nat)).1 MwE 1).1 rfl).1 (by decide)
  · exact ((((conflict_policy_resolution (V := Unit) (T := Nat)).2.1 MdE).1 rfl
      (by decide) (by decide)).1 (by decide))

----------------------------------------------------------------
-- Claim C8 — the dead target node of match_any_of
----------------------------------------------------------------
theorem Unlinked.with_cursors {m : Machine V T} {cs : List Nat} {j : Nat}
    (h : Unlinked m j) : Unlinked ({ m with cursors := cs } : Machine V T) j :=
  ⟨h.1, h.2.1, h.2.2.1, h.2.2.2⟩

theorem cdt_phase1_size [DecidableEq T] :
    ∀ (cs : List Nat) (m : Machine V T) (tr : Key T) (idx : Nat),
      (cdt_phase1 tr idx m cs).size = m.size := by
  intro cs
  induction cs with
  | nil => intro m tr idx; rfl
  | cons c rest ih =>
    intro m tr idx
    show (cdt_phase1 tr idx (m.set_key c tr idx) rest).size = m.size
    rw [ih, Machine.size_set_key]

theorem cdt_phase1_unlinked [DecidableEq T] :
    ∀ (cs : List Nat) (m : Machine V T) (tr : Key T) (idx j : Nat),
      Unlinked m j → idx ≠ j → (∀ c ∈ cs, 1 ≤ c ∧ c ≠ j) →
      Unlinked (cdt_phase1 tr idx m cs) j := by
  intro cs
  induction cs with
  | nil => intro m tr idx j hU _ _; exact hU
  | cons c rest ih =>
    intro m tr idx j hU hidx hc
    have hch := hc c (List.mem_cons_self _ _)
    exact ih _ tr idx j (hU.set_key hch.1 hch.2 hidx) hidx
      (fun q hq => hc q (List.mem_cons_of_mem _ hq))

theorem cdt_phase2_main [DecidableEq T] :
    ∀ (cs : List Nat) (m : Machine V T) (tr : Key T),
      m.size ≤ (cdt_phase2 tr m cs).1.size ∧
      (∀ x ∈ (cdt_phase2 tr m cs).2, m.size < x) ∧
      (∀ j, Unlinked m j → (∀ c ∈ cs, 1 ≤ c ∧ c ≠ j) →
        Unlinked (cdt_phase2 tr m cs).1 j) := by
  intro cs
  induction cs with
  | nil => intro m tr; exact ⟨le_refl _, by simp [cdt_phase2], fun j hU _ => hU⟩
  | cons cursor rest ih =>
    intro m tr
    have heq : cdt_phase2 tr m (cursor :: rest) =
        ((cdt_phase2 tr (cdt2Step m cursor tr) rest).1,
          (m.size + 1) :: (cdt_phase2 tr (cdt2Step m cursor tr) rest).2) := rfl
    rw [heq]
    obtain ⟨ihs, ihf, ihj⟩ := ih (cdt2Step m cursor tr) tr
    have hsz : (cdt2Step m cursor tr).size = m.size + 1 := by
      simp only [cdt2Step, Machine.size_set_key, Machine.size_push]
    refine ⟨?_, ?_, ?_⟩
    · show m.size ≤ (cdt_phase2 tr (cdt2Step m cursor tr) rest).1.size
      omega
    · intro x hx
      replace hx : x ∈ (m.size + 1) :: (cdt_phase2 tr (cdt2Step m cursor tr) rest).2 := hx
      rcases List.mem_cons.mp hx with rfl | hx
      · omega
      · have := ihf x hx
        omega
    · intro j hU hc
      show Unlinked (cdt_phase2 tr (cdt2Step m cursor tr) rest).1 j
      have hch := hc cursor (List.mem_cons_self _ _)
      have hjle := hU.2.2.2
      have hclone : NoRef j ((if (m.get_node cursor).getKey tr = cursor then
          (m.get_node ((m.get_node cursor).getKey tr)).setKey tr (m.size + 1)
          else m.get_node ((m.get_node cursor).getKey tr))) := by
        split
        · exact (hU.noRef_get _).setKey (by omega)
        · exact hU.noRef_get _
      have hUM : Unlinked (cdt2Step m cursor tr) j := by
        simp only [cdt2Step]
        exact ((hU.push hclone).set_key hch.1 hch.2 (by omega))
      exact ihj j hUM (fun q hq => hc q (List.mem_cons_of_mem _ hq))

theorem cdt_phase3_main [DecidableEq T] :
    ∀ (cs : List Nat) (m : Machine V T) (fuel : Nat) (tr : Key T)
      (m3 : Machine V T) (curs : List Nat) (tasks : List (Nat × Nat)),
      cdt_phase3 fuel tr m cs = .ok (m3, curs, tasks) →
      m.size ≤ m3.size ∧
      (∀ x ∈ curs, m.size < x) ∧
      (∀ t ∈ tasks, m.size < t.1) ∧
      (∀ j, Unlinked m j → (∀ c ∈ cs, 1 ≤ c ∧ c ≠ j) → Unlinked m3 j) := by
  intro cs
  induction cs with
  | nil =>
    intro m fuel tr m3 curs tasks h
    simp only [cdt_phase3] at h
    cases h
    exact ⟨le_refl _, by simp, by simp, fun j hU _ => hU⟩
  | cons cursor rest ih =>
    intro m fuel tr m3 curs tasks h
    simp only [cdt_phase3] at h
    split at h
    next hold =>
      split at h
      · exact absurd h (by simp)
      next x mr rep hmr =>
        split at h
        · exact absurd h (by simp)
        next inter reptail =>
          split at h
          · exact absurd h (by simp)
          next x2 m3b cursb tasksb hrec =>
            cases h
            obtain ⟨hs1, hf1, hfr1, hj1⟩ :=
              mnalOk fuel m cursor tr ((m.get_node cursor).deflt)
                [(m.get_node cursor).deflt] mr (inter :: reptail) hmr
            obtain ⟨hs2, hc2, ht2, hj2⟩ := ih mr fuel tr _ _ _ hrec
            have hinter : m.size < inter := hfr1 inter (by simp)
            refine ⟨le_trans hs1 hs2, ?_, ?_, ?_⟩
            · intro x hx
              rcases List.mem_cons.mp hx with rfl | hx
              · exact hinter
              · exact lt_of_le_of_lt hs1 (hc2 x hx)
            · intro t ht
              exact lt_of_le_of_lt hs1 (ht2 t ht)
            · intro j hU hc
              have hch := hc cursor (List.mem_cons_self _ _)
              refine hj2 j (hj1 j hU hch.2 ((hU.noRef_get cursor).2.1)) ?_
              exact fun q hq => hc q (List.mem_cons_of_mem _ hq)
    next hold =>
      split at h
      · exact absurd h (by simp)
      next x2 m3b cursb tasksb hrec =>
        cases h
        obtain ⟨hs2, hc2, ht2, hj2⟩ := ih _ fuel tr _ _ _ hrec
        have hsz : ((m.push_node emptyNode).set_key cursor tr (m.size + 1)).size
            = m.size + 1 := by
          rw [Machine.size_set_key, Machine.size_push]
        rw [hsz] at hs2
        refine ⟨by omega, ?_, ?_, ?_⟩
        · intro x hx
          rcases List.mem_cons.mp hx with rfl | hx
          · omega
          · have := hc2 x hx
            rw [hsz] at this
            omega
        · intro t ht
          rcases List.mem_cons.mp ht with rfl | ht
          · show m.size < m.size + 1
            omega
          · have := ht2 t ht
            rw [hsz] at this
            omega
        · intro j hU hc
          have hch := hc cursor (List.mem_cons_self _ _)
          have hjle := hU.2.2.2
          refine hj2 j (((hU.push (NoRef.empty hU.2.2.1)).set_key hch.1 hch.2 (by omega))) ?_
          exact fun q hq => hc q (List.mem_cons_of_mem _ hq)

theorem cdt_tasks_main [DecidableEq T] :
    ∀ (ts : List (Nat × Nat)) (m : Machine V T),
      (cdt_tasks m ts).size = m.size ∧
      (∀ j, Unlinked m j → (∀ t ∈ ts, 1 ≤ t.1 ∧ t.1 ≠ j) →
        Unlinked (cdt_tasks m ts) j) := by
  intro ts
  induction ts with
  | nil => intro m; exact ⟨rfl, fun j hU _ => hU⟩
  | cons t rest ih =>
    intro m
    obtain ⟨a, b⟩ := t
    obtain ⟨ihs, ihj⟩ := ih (m.set_node a (m.get_node b))
    have heq : cdt_tasks m ((a, b) :: rest) = cdt_tasks (m.set_node a (m.get_node b)) rest :=
      rfl
    rw [heq, ihs, Machine.size_set_node]
    refine ⟨rfl, ?_⟩
    intro j hU ht
    have hth := ht (a, b) (List.mem_cons_self _ _)
    refine ihj j (hU.set_node hth.1 hth.2 (hU.noRef_get b)) ?_
    exact fun q hq => ht q (List.mem_cons_of_mem _ hq)

/-- cursor_discreet_transition: the store only grows, and an unlinked
empty node away from the cursors stays unlinked, with the produced cursor
set made only of freshly allocated indices. -/
theorem cdt_main [DecidableEq T] (m : Machine V T) (fuel : Nat) (tr : Key T)
    (m2 : Machine V T) (h : cursor_discreet_transition fuel m tr = .ok m2) :
    m.size ≤ m2.size ∧
    (∀ j, Unlinked m j → (∀ c ∈ m.cursors, 1 ≤ c ∧ c ≠ j) →
      Unlinked m2 j ∧ (∀ c ∈ m2.cursors, 1 ≤ c ∧ c ≠ j)) := by
  simp only [cursor_discreet_transition] at h
  by_cases hcw : (m.cursors.filter (fun c =>
      decide ((m.get_node c).deflt = 0 ∧ (m.get_node c).getKey tr = 0))).length ≠ 0
  · rw [if_pos hcw] at h
    dsimp only at h
    set F1 := m.cursors.filter (fun c =>
      decide ((m.get_node c).deflt = 0 ∧ (m.get_node c).getKey tr = 0)) with hF1
    set F2 := m.cursors.filter (fun c =>
      decide ((m.get_node c).deflt = 0 ∧ (m.get_node c).getKey tr ≠ 0)) with hF2
    set F3 := m.cursors.filter (fun c => (m.get_node c).deflt != 0) with hF3
    set P1M := cdt_phase1 tr (m.size + 1) (m.push_node emptyNode) F1 with hP1M
    split at h
    · exact absurd h (by simp)
    next x2 m3 curs3 tasks hrec =>
      cases h
      have hp1s : P1M.size = m.size + 1 := by
        rw [hP1M, cdt_phase1_size, Machine.size_push]
      obtain ⟨hp2s, hp2f, hp2j⟩ := cdt_phase2_main F2 P1M tr
      obtain ⟨hp3s, hp3c, hp3t, hp3j⟩ := cdt_phase3_main _ _ fuel tr _ _ _ hrec
      obtain ⟨hts, htj⟩ := cdt_tasks_main tasks m3
      rw [hp1s] at hp2s
      constructor
      · show m.size ≤ (cdt_tasks m3 tasks).size
        rw [hts]
        omega
      · intro j hU hcur
        have hjle := hU.2.2.2
        have hj1 : Unlinked P1M j := by
          rw [hP1M]
          refine cdt_phase1_unlinked _ _ tr (m.size + 1) j
            (hU.push (NoRef.empty hU.2.2.1)) (by omega) ?_
          intro c hc
          exact hcur c (List.mem_filter.mp (hF1 ▸ hc)).1
        have hj2 := hp2j j hj1 (fun c hc => hcur c (List.mem_filter.mp (hF2 ▸ hc)).1)
        have hj3 := hp3j j hj2 (fun c hc => by
          have hc2 := hF3 ▸ hc
          exact hcur c (List.mem_filter.mp hc2).1)
        have hj4 := htj j hj3 (fun t ht => by
          have := hp3t t ht
          exact ⟨by omega, by omega⟩)
        refine ⟨hj4.with_cursors, ?_⟩
        intro c hc
        rcases List.mem_append.mp hc with hc | hc
        · rcases List.mem_append.mp hc with hc | hc
          · rcases List.mem_singleton.mp hc with rfl
            exact ⟨by omega, by omega⟩
          · have := hp2f c hc
            exact ⟨by omega, by omega⟩
        · have := hp3c c hc
          exact ⟨by omega, by omega⟩
  · rw [if_neg hcw] at h
    dsimp only at h
    set F2 := m.cursors.filter (fun c =>
      decide ((m.get_node c).deflt = 0 ∧ (m.get_node c).getKey tr ≠ 0)) with hF2
    set F3 := m.cursors.filter (fun c => (m.get_node c).deflt != 0) with hF3
    split at h
    · exact absurd h (by simp)
    next x2 m3 curs3 tasks hrec =>
      cases h
      obtain ⟨hp2s, hp2f, hp2j⟩ := cdt_phase2_main F2 m tr
      obtain ⟨hp3s, hp3c, hp3t, hp3j⟩ := cdt_phase3_main _ _ fuel tr _ _ _ hrec
      obtain ⟨hts, htj⟩ := cdt_tasks_main tasks m3
      constructor
      · show m.size ≤ (cdt_tasks m3 tasks).size
        rw [hts]
        omega
      · intro j hU hcur
        have hjle := hU.2.2.2
        have hj2 := hp2j j hU (fun c hc => hcur c (List.mem_filter.mp (hF2 ▸ hc)).1)
        have hj3 := hp3j j hj2 (fun c hc => by
          have hc2 := hF3 ▸ hc
          exact hcur c (List.mem_filter.mp hc2).1)
        have hj4 := htj j hj3 (fun t ht => by
          have := hp3t t ht
          exact ⟨by omega, by omega⟩)
        refine ⟨hj4.with_cursors, ?_⟩
        intro c hc
        rcases List.mem_append.mp hc with hc | hc
        · rcases List.mem_append.mp hc with hc | hc
          · simp at hc
          · have := hp2f c hc
            exact ⟨by omega, by omega⟩
        · have := hp3c c hc
          exact ⟨by omega, by omega⟩

/-- The per-option loop of match_any_of preserves unlinkedness and only
produces fresh cursors. -/
theorem mao_go_main [DecidableEq T] :
    ∀ (opts : List T) (m : Machine V T) (acc : List Nat) (fuel : Nat)
      (initial : List Nat) (m2 : Machine V T) (r2 : List Nat),
      mao_go fuel initial m acc opts = .ok (m2, r2) →
      m.size ≤ m2.size ∧
      (∀ j, Unlinked m j → (∀ c ∈ initial, 1 ≤ c ∧ c ≠ j) →
        (∀ c ∈ acc, 1 ≤ c ∧ c ≠ j) →
        Unlinked m2 j ∧ (∀ c ∈ r2, 1 ≤ c ∧ c ≠ j)) := by
  intro opts
  induction opts with
  | nil =>
    intro m acc fuel initial m2 r2 h
    simp only [mao_go] at h
    cases h
    exact ⟨le_refl _, fun j hU _ hacc => ⟨hU, hacc⟩⟩
  | cons choice rest ih =>
    intro m acc fuel initial m2 r2 h
    simp only [mao_go] at h
    split at h
    · exact absurd h (by simp)
    next mi hcd =>
      obtain ⟨hcs, hcj⟩ := cdt_main _ fuel (Key.sym choice) mi hcd
      obtain ⟨ihs, ihj⟩ := ih mi (acc ++ mi.cursors) fuel initial m2 r2 h
      refine ⟨le_trans hcs ihs, ?_⟩
      intro j hU hini hacc
      obtain ⟨hUi, hmi⟩ := hcj j hU.with_cursors hini
      refine ihj j hUi hini ?_
      intro c hc
      rcases List.mem_append.mp hc with hc | hc
      · exact hacc c hc
      · exact hmi c hc

theorem not_mem_reach_iter [DecidableEq T] {m : Machine V T} {j : Nat}
    (hno : ∀ i, NoRef j (m.get_node i)) :
    ∀ (n : Nat) (s : List Nat), j ∉ s → j ∉ reach_iter m n s := by
  intro n
  induction n with
  | zero => intro s hs; simpa [reach_iter] using hs
  | succ k ih =>
    intro s hs
    refine ih _ ?_
    intro hj
    unfold reach_step at hj
    rcases List.mem_append.mp hj with hj | hj
    · exact hs hj
    · have hj2 := (List.mem_filter.mp hj).1
      rcases List.mem_flatten.mp hj2 with ⟨l, hl, hjl⟩
      rcases List.mem_map.mp hl with ⟨i, hi, rfl⟩
      exact (hno i).not_mem_refsOf hjl

/-- C8: every call of match_any_of on a well-formed machine pushes the
locally allocated target node at index size+1 and never touches it again:
in the result it is still the empty node (structurally null), no node of
the store references it, it is unreachable from the root, and the store
is strictly larger — even when every requested transition already
existed. -/
theorem match_any_of_dead_target [DecidableEq T] (fuel : Nat) (m : Machine V T)
    (options : List T) (m2 : Machine V T) (hwf : WellFormed m)
    (h : match_any_of fuel m options = .ok m2) :
    m.size < m2.size ∧
    m2.get_node (m.size + 1) = emptyNode ∧
    (m2.get_node (m.size + 1)).is_null = true ∧
    (∀ nd ∈ m2.nodes, NoRef (m.size + 1) nd) ∧
    (m.size + 1) ∉ reachClosure m2 1 := by
  simp only [match_any_of] at h
  split at h
  · exact absurd h (by simp)
  next mi acc hmao =>
    cases h
    have hU1 : Unlinked (m.push_node emptyNode) (m.size + 1) := by
      refine ⟨get_node_push_self, ?_, by omega, by rw [Machine.size_push]⟩
      intro nd hnd
      rcases List.mem_append.mp hnd with hnd | hnd
      · obtain ⟨hc, hd, he⟩ := hwf.2.1 nd hnd
        exact ⟨fun p hp => by have := hc p hp; omega, by omega, by omega⟩
      · rcases List.mem_singleton.mp hnd with rfl
        exact NoRef.empty (by omega)
    have hcur : ∀ c ∈ (m.push_node emptyNode).cursors, 1 ≤ c ∧ c ≠ m.size + 1 := by
      intro c hc
      have := hwf.2.2 c hc
      exact ⟨this.1, by omega⟩
    obtain ⟨hs, hrest⟩ := mao_go_main options (m.push_node emptyNode) [] fuel _ mi acc hmao
    obtain ⟨hU2, _⟩ := hrest (m.size + 1) hU1 hcur (by simp)
    have hU3 : Unlinked ({ mi with cursors := acc } : Machine V T) (m.size + 1) :=
      hU2.with_cursors
    rw [Machine.size_push] at hs
    refine ⟨?_, hU3.1, ?_, hU3.2.1, ?_⟩
    · show m.size < mi.size
      omega
    · rw [hU3.1]
      rfl
    · unfold reachClosure
      refine not_mem_reach_iter (fun i => hU3.noRef_get i) _ _ ?_
      intro hmem
      have h1 : m.size + 1 = 1 := List.mem_singleton.mp hmem
      have := hwf.1
      omega

/-- Witness for C8 at the fresh machine with two requested symbols. -/
theorem match_any_of_dead_target_witness :
    WellFormed (newMachine : Machine Unit Nat) ∧
    match_any_of 9 (newMachine : Machine Unit Nat) [0, 1] = .ok M8res ∧
    (newMachine : Machine Unit Nat).size < M8res.size ∧
    M8res.get_node 2 = emptyNode ∧
    2 ∉ reachClosure M8res 1 := by
  have h := match_any_of_dead_target 9 (newMachine : Machine Unit Nat) [0, 1] M8res
    (by unfold WellFormed; decide) (by decide)
  exact ⟨by unfold WellFormed; decide, by decide, h.1, h.2.1, h.2.2.2.2⟩

----------------------------------------------------------------
-- Claim C1 — semantic equivalence of optimize
----------------------------------------------------------------
/-- C1: the machine buildC1, produced by builder calls only, accepts the
input 0.1 before optimize and rejects it after: remove_duplicates_once
compares only the later node's transitions against the earlier node's, so
the earlier accepting node (which carries an extra outgoing transition) is
merged into a later transition-free accepting node and the live path is
dropped.  The claim requires identical results before and after. -/
theorem optimize_breaks_matches_on_buildC1 :
    buildC1.map (fun m => (matchesU m [0, 1], matchesU (optimize m) [0, 1])) =
      .ok (true, false) := by
  decide
end RegexBackend
